import Mathlib

/-!
Verification of the schedule-parser core (src/app.js) against its specification.

Shallow embedding conventions:
* JS strings are Lean `String`s; per-character operations work on `String.data : List Char`.
* JS numbers holding text coordinates are modelled as `Int`: the parser only ever adds,
  subtracts, compares, takes absolute values and 2-unit-rounds coordinates, so integer
  coordinates exercise every branch of the algorithm while keeping every definition
  kernel-computable.  The `Math.round(y/2)*2` bucket of an integer `y` is `y` rounded up
  to the next even number when odd (`Math.round` rounds halves toward +infinity).
* JS `toUpperCase`/`toLowerCase` are modelled on the ASCII letters (the only letters the
  parser's code patterns accept); other characters are left unchanged.
* `\s` / `trim` whitespace is the JS whitespace set (tab, LF, VT, FF, CR, space, NBSP,
  ogham space, the U+2000 block, line/paragraph separators, narrow/medium spaces,
  ideographic space, BOM).
* JS `null` becomes `Option.none`; the numeric falsiness tests the code performs
  (`!detectedYear`, `!day`, `value || fallback`) are modelled explicitly, treating a
  stored `0` as falsy exactly as JS does.
-/

namespace App

set_option maxRecDepth 10000

/-! ## Character primitives -/

/-- JS whitespace (the class `\s`, which is also the set `String.prototype.trim` strips). -/
def isWS (c : Char) : Bool :=
  let n := c.toNat
  decide ((9 ≤ n ∧ n ≤ 13) ∨ n = 32 ∨ n = 160 ∨ n = 0x1680 ∨ (0x2000 ≤ n ∧ n ≤ 0x200A) ∨
    n = 0x2028 ∨ n = 0x2029 ∨ n = 0x202F ∨ n = 0x205F ∨ n = 0x3000 ∨ n = 0xFEFF)

/-- ASCII digit, the regex class `\d`. -/
def isDigitCh (c : Char) : Bool :=
  decide (48 ≤ c.toNat ∧ c.toNat ≤ 57)

/-- ASCII letter, the regex class `[A-Za-z]`. -/
def isAsciiLetter (c : Char) : Bool :=
  decide ((65 ≤ c.toNat ∧ c.toNat ≤ 90) ∨ (97 ≤ c.toNat ∧ c.toNat ≤ 122))

/-- Uppercase ASCII letter `[A-Z]`. -/
def isUpperLetter (c : Char) : Bool :=
  decide (65 ≤ c.toNat ∧ c.toNat ≤ 90)

/-- The regex word class `\w = [A-Za-z0-9_]`, used for `\b` boundaries. -/
def isWordChar (c : Char) : Bool :=
  isAsciiLetter c || isDigitCh c || decide (c.toNat = 95)

/-- A letter for the employee-name test `[A-Za-zÀ-ÖØ-öø-ÿ]` (ASCII plus Latin-1 letters). -/
def isNameAlpha (c : Char) : Bool :=
  isAsciiLetter c ||
    decide ((0xC0 ≤ c.toNat ∧ c.toNat ≤ 0xD6) ∨ (0xD8 ≤ c.toNat ∧ c.toNat ≤ 0xF6) ∨
      (0xF8 ≤ c.toNat ∧ c.toNat ≤ 0xFF))

/-- ASCII uppercasing of one character (JS `toUpperCase` restricted to ASCII). -/
def upChar (c : Char) : Char :=
  if 97 ≤ c.toNat ∧ c.toNat ≤ 122 then Char.ofNat (c.toNat - 32) else c

/-- ASCII lowercasing of one character (JS `toLowerCase` restricted to ASCII). -/
def lowChar (c : Char) : Char :=
  if 65 ≤ c.toNat ∧ c.toNat ≤ 90 then Char.ofNat (c.toNat + 32) else c

/-! ## String primitives -/

/-- Drop trailing whitespace (right half of JS `trim`). -/
def trimRight : List Char → List Char
  | [] => []
  | c :: rest =>
    let r := trimRight rest
    if r.isEmpty then (if isWS c then [] else [c]) else c :: r

/-- JS `String.prototype.trim`: strip leading and trailing whitespace. -/
def jsTrim (s : String) : String :=
  ⟨trimRight (s.data.dropWhile isWS)⟩

/-- Worker for `replace(/\s+/g, " ")`: the flag records whether we are inside a
whitespace run whose single replacement `' '` has already been emitted. -/
def collapseAux : Bool → List Char → List Char
  | _, [] => []
  | inWS, c :: rest =>
    if isWS c then
      (if inWS then collapseAux true rest else ' ' :: collapseAux true rest)
    else c :: collapseAux false rest

/-- JS `replace(/\s+/g, " ")`: every maximal whitespace run becomes one space. -/
def collapseWS (s : String) : String :=
  ⟨collapseAux false s.data⟩

/-- JS `toUpperCase` (ASCII model). -/
def jsUpper (s : String) : String :=
  ⟨s.data.map upChar⟩

/-- JS `toLowerCase` (ASCII model). -/
def jsLower (s : String) : String :=
  ⟨s.data.map lowChar⟩

/-- JS `Array.prototype.join(" ")`. -/
def joinSpace (l : List String) : String :=
  String.intercalate " " l

/-! ## Name cleanup (src/app.js lines 105-109)

`cleanEmployeeName` collapses whitespace, trims, then applies
`t.replace(/\s+(\d{1,2}|fe)\s*$/i, "")` and trims again.  The regex's unique match, when one
exists, starts at the whitespace run preceding a final bare 1-2-digit number or `fe` token
(case-insensitive) that is followed only by whitespace; the whole match is removed. -/

/-- Does `l` consist of the token part of the tail regex: `(\d{1,2}|fe)\s*` covering all of
`l` (1 or 2 digits, or `fe` case-insensitively, followed only by whitespace)? -/
def tokTail : List Char → Bool
  | [] => false
  | a :: rest =>
    (isDigitCh a && (rest.all isWS ||
      (match rest with
       | b :: r2 => isDigitCh b && r2.all isWS
       | [] => false))) ||
    (match rest with
     | b :: r2 => decide (lowChar a = 'f') && decide (lowChar b = 'e') && r2.all isWS
     | [] => false)

/-- Does `\s+(\d{1,2}|fe)\s*$` match starting exactly at the head of `l` (and reaching the
end of the string)? -/
def wsTokTail : List Char → Bool
  | [] => false
  | c :: rest => isWS c && tokTail ((c :: rest).dropWhile isWS)

/-- `t.replace(/\s+(\d{1,2}|fe)\s*$/i, "")`: delete from the leftmost position where the
tail regex matches (the regex is end-anchored, so the replacement keeps the prefix). -/
def stripSuffix : List Char → List Char
  | [] => []
  | c :: rest => if wsTokTail (c :: rest) then [] else c :: stripSuffix rest

/-- Does the tail regex match anywhere in `l`? -/
def hasTailMatch : List Char → Bool
  | [] => false
  | c :: rest => wsTokTail (c :: rest) || hasTailMatch rest

/-- `function cleanEmployeeName(leftText)`: collapse whitespace runs, trim, strip one
trailing bare 1-2-digit number or `fe` token, trim again. -/
def cleanEmployeeName (s : String) : String :=
  jsTrim ⟨stripSuffix (jsTrim (collapseWS s)).data⟩

/-! ## Day classifier (src/app.js lines 5-6 and 14-20) -/

/-- `const OFF_CODES = new Set(["FG","FA","FC","FE","FF","FAN","COVE"])`. -/
def OFF_CODES : List String := ["FG", "FA", "FC", "FE", "FF", "FAN", "COVE"]

/-- `const ABSENT_CODES = new Set(["DM","EMT","AJ","X"])`. -/
def ABSENT_CODES : List String := ["DM", "EMT", "AJ", "X"]

/-- `function classify(code)` — the day classifier.  The argument is always a string at the
call sites, so the JS `code || ""` guard only re-supplies the empty string. -/
def classify (code : String) : String :=
  let c := jsUpper (jsTrim code)
  if c = "" then "working"
  else if c ∈ OFF_CODES then "off"
  else if c ∈ ABSENT_CODES then "absent"
  else "working"

/-! ## Day anchors and nearest-day lookup (src/app.js lines 62-69) -/

/-- JS `Math.abs` on our integer-modelled coordinates. -/
def absI (n : Int) : Int := if n < 0 then -n else n

/-- A day-column anchor `{day:Number(t.str), x:t.x}` (src/app.js line 152). -/
structure DayAnchor where
  day : Nat
  x : Int
  deriving DecidableEq

/-- The accumulator loop of `nearestDay`: `best`/`bestDist` start as JS `null`/`Infinity`
(both modelled by `none`); `d < Infinity` always holds, and the update test is strict. -/
def nearestLoop (x : Int) : List DayAnchor → Option Nat → Option Int → Option Nat × Option Int
  | [], best, bestDist => (best, bestDist)
  | a :: rest, best, bestDist =>
    let d := absI (x - a.x)
    match bestDist with
    | none => nearestLoop x rest (some a.day) (some d)
    | some bd =>
      if d < bd then nearestLoop x rest (some a.day) (some d)
      else nearestLoop x rest best bestDist

/-- `function nearestDay(x, anchors)`: nearest anchor by absolute horizontal distance,
returned only when `bestDist < 12` (an `Infinity` best distance fails that test). -/
def nearestDay (x : Int) (anchors : List DayAnchor) : Option Nat :=
  match nearestLoop x anchors none none with
  | (best, some bd) => if bd < 12 then best else none
  | (_, none) => none

/-! ## Case-insensitive scanning helpers (regex `\b`, alternations, `/i`) -/

/-- Case-insensitively match the lowercase pattern `p` as a prefix of the input, returning
the matched original characters and the remainder. -/
def ciMatchLen : List Char → List Char → Option (List Char × List Char)
  | [], l => some ([], l)
  | _ :: _, [] => none
  | p :: ps, c :: cs =>
    if lowChar c = p then
      match ciMatchLen ps cs with
      | some (tk, r) => some (c :: tk, r)
      | none => none
    else none

/-- Is the lowercase pattern `p` a prefix of a list, case-insensitively, followed by a
non-word character or the end (regex `^pat\b` with the `i` flag)? -/
def startsWordCi (t : String) (w : String) : Bool :=
  match ciMatchLen w.data t.data with
  | some (_, []) => true
  | some (_, c :: _) => !(isWordChar c)
  | none => false

/-- Is `pat` a prefix of `l` (character-exact)? -/
def startsWithL : List Char → List Char → Bool
  | _, [] => true
  | [], _ :: _ => false
  | c :: cs, p :: ps => decide (c = p) && startsWithL cs ps

/-- Does `l` contain `pat` as a contiguous substring (JS `String.prototype.includes`)? -/
def containsL : List Char → List Char → Bool
  | [], pat => pat.isEmpty
  | c :: rest, pat => startsWithL (c :: rest) pat || containsL rest pat

/-! ## Day-number tokens, code normalization (src/app.js lines 111-118) -/

/-- The regex `/^\d{1,2}$/`: a bare 1-2-digit token. -/
def day2Chars : List Char → Bool
  | [c] => isDigitCh c
  | [c, d] => isDigitCh c && isDigitCh d
  | _ => false

/-- `/^\d{1,2}$/.test(s)`. -/
def isDay2 (s : String) : Bool := day2Chars s.data

/-- The regex alternation of full English month names, in source order. -/
def monthNamesU : List String :=
  ["January", "February", "March", "April", "May", "June", "July", "August", "September",
   "October", "November", "December"]

/-- `/^(JANUARY|FEBRUARY|...)$/i.test(t)`: `t` is exactly a month name, case-insensitively. -/
def isFullMonthName (t : String) : Bool :=
  monthNamesU.any (fun nm => jsLower t = jsLower nm)

/-- `/^[A-Za-z]{1,6}\d{0,3}$/`: one to six ASCII letters followed by up to three digits. -/
def codeShape1 (l : List Char) : Bool :=
  let ls := l.takeWhile isAsciiLetter
  let ds := l.dropWhile isAsciiLetter
  decide (1 ≤ ls.length) && decide (ls.length ≤ 6) && ds.all isDigitCh && decide (ds.length ≤ 3)

/-- `/^[A-Za-z]{2,6}$/`: two to six ASCII letters (subsumed by the first pattern, but the
source tests both). -/
def codeShape2 (l : List Char) : Bool :=
  decide (2 ≤ l.length) && decide (l.length ≤ 6) && l.all isAsciiLetter

/-- `function normalizeCode(s)` (src/app.js lines 111-118): trim; reject empty, bare
1-2-digit numbers and full month names; accept the two letter/digit shapes, upper-cased. -/
def normalizeCode (s : String) : Option String :=
  let t := jsTrim s
  if t = "" then none
  else if isDay2 t then none
  else if isFullMonthName t then none
  else if codeShape1 t.data || codeShape2 t.data then some (jsUpper t)
  else none

/-- The normalized-code well-formedness predicate used by claim C9: 1-6 uppercase ASCII
letters followed by 0-3 digits. -/
def upperCodeShape (s : String) : Bool :=
  let ls := s.data.takeWhile isUpperLetter
  let ds := s.data.dropWhile isUpperLetter
  decide (1 ≤ ls.length) && decide (ls.length ≤ 6) && ds.all isDigitCh && decide (ds.length ≤ 3)

/-! ## Month/year detector (src/app.js lines 38-41 and 137-142)

The page text is scanned with `/\b(January|February|...)\b\s+(\d{4})/i`; the leftmost
match yields the month-name capture (original case) and the 4-digit year value. -/

/-- `function monthNameToNumber(name)`: lowercase table lookup, `|| null`. -/
def monthTable : List (String × Nat) :=
  [("january", 1), ("february", 2), ("march", 3), ("april", 4), ("may", 5), ("june", 6),
   ("july", 7), ("august", 8), ("september", 9), ("october", 10), ("november", 11),
   ("december", 12)]

def monthNameToNumber (name : String) : Option Nat :=
  match monthTable.find? (fun p => p.1 = jsLower name) with
  | some p => if p.2 = 0 then none else some p.2
  | none => none

/-- After a month name: `\b\s+(\d{4})` — at least one whitespace character (whitespace is
a non-word character, so it also realizes the `\b`), then four digits; the year value is
`Number(m[2])`. -/
def tryYear (rest : List Char) : Option Int :=
  match rest with
  | c :: _ =>
    if isWS c then
      match rest.dropWhile isWS with
      | a :: b :: c2 :: d :: _ =>
        if isDigitCh a && isDigitCh b && isDigitCh c2 && isDigitCh d then
          some (((a.toNat - 48) * 1000 + (b.toNat - 48) * 100 + (c2.toNat - 48) * 10 +
            (d.toNat - 48) : Nat) : Int)
        else none
      | _ => none
    else none
  | [] => none

/-- Try each month name of the alternation, in order, at the current position. -/
def tryMonths : List String → List Char → Option (String × Int)
  | [], _ => none
  | nm :: rest, l =>
    match ciMatchLen (jsLower nm).data l with
    | some (tk, r) =>
      match tryYear r with
      | some y => some (⟨tk⟩, y)
      | none => tryMonths rest l
    | none => tryMonths rest l

/-- The `\b` before the month name: at the start of the text, or after a non-word
character. -/
def wordBoundary : Option Char → Bool
  | none => true
  | some pc => !(isWordChar pc)

/-- Leftmost match of the month/year regex: at each position with a word boundary
(`prev` is the previous character), try the alternation; otherwise advance. -/
def scanMY : Option Char → List Char → Option (String × Int)
  | _, [] => none
  | prev, c :: cs =>
    match (if wordBoundary prev then tryMonths monthNamesU (c :: cs) else none) with
    | some res => some res
    | none => scanMY (some c) cs

/-! ## Shift labels and noise lines (src/app.js lines 71-103) -/

/-- The fixed allow-list of bare section names (src/app.js line 76). -/
def directSections : List String :=
  ["GSE", "TOOLING", "ADMINIST.", "ADMINIST", "SUPERVISORS", "SHIFT B2", "SHIFT C", "SHIFT B"]

/-- The direct-list scan: return the canonical list entry `k` whose uppercase equals the
uppercase of `t`. -/
def directFind (t : String) : Option String :=
  directSections.find? (fun k => jsUpper t = jsUpper k)

/-- `function detectShiftLabel(text)`: collapse/trim, then `/^SHIFT\s+(.+)$/i` (capture
trimmed and collapsed), else the direct allow-list.  `t` is collapsed and trimmed, so
after a case-insensitive "SHIFT" prefix the regex requires one whitespace character and a
non-empty remainder, which is returned trimmed and collapsed. -/
def detectShiftLabel (text : String) : Option String :=
  let t := jsTrim (collapseWS text)
  match ciMatchLen "shift".data t.data with
  | some (_, c :: cs) =>
    if isWS c then some (collapseWS (jsTrim ⟨(c :: cs).dropWhile isWS⟩))
    else directFind t
  | some (_, []) => directFind t
  | none => directFind t

/-- Greedy count of `(\s+\d)` repetitions: the flag is true while consuming the
whitespace run of the current repetition. -/
def grpCount : Bool → List Char → Nat
  | _, [] => 0
  | false, c :: rest => if isWS c then grpCount true rest else 0
  | true, c :: rest =>
    if isWS c then grpCount true rest
    else if isDigitCh c then 1 + grpCount false rest else 0

/-- `/^\d(\s+\d){5,}/.test(t)`: a leading digit followed by at least five
whitespace-digit groups. -/
def digitRunTest (t : List Char) : Bool :=
  match t with
  | c :: rest => isDigitCh c && decide (5 ≤ grpCount false rest)
  | [] => false

/-- `function isNonEmployeeLine(text)` (src/app.js lines 83-95). -/
def isNonEmployeeLine (text : String) : Bool :=
  let t := jsTrim (jsUpper text)
  if t = "" then true
  else
    containsL t.data "MONTHLY SCHEDULE".data || startsWithL t.data "TOTAL".data ||
      containsL t.data "HEAD COUNT".data || containsL t.data "FERIADO".data ||
      containsL t.data "LAST REV".data || startsWithL t.data "SUN ".data ||
      digitRunTest t.data

/-- `function looksLikeEmployeeName(leftText)` (src/app.js lines 97-103). -/
def looksLikeEmployeeName (leftText : String) : Bool :=
  let t := jsTrim leftText
  if t = "" || decide (t.data.length < 3) then false
  else if startsWordCi t "total" then false
  else if startsWordCi t "head" then false
  else t.data.any isNameAlpha

/-! ## The page pipeline (src/app.js lines 43-60 and 120-198) -/

/-- One extracted text item after the mapping on src/app.js lines 132-135 (its unused
`width`/`height` fields are dropped). -/
structure RawItem where
  str : String
  x : Int
  y : Int
  deriving DecidableEq

/-- The per-page item preparation: trim each string, keep non-empty ones
(src/app.js lines 132-135). -/
def pageItems (page : List RawItem) : List RawItem :=
  (page.map (fun it => { it with str := jsTrim it.str })).filter fun o => !(o.str.data.isEmpty)

/-- `Math.round(y/2)*2` for an integer `y`: odd values round up to the next even number
(`Math.round` sends halves toward positive infinity). -/
def yKeyOf (y : Int) : Int := if y % 2 = 0 then y else y + 1

/-- Map insertion preserving first-seen key order, appending within a bucket
(`m.get(yKey).push(it)`). -/
def insertGrp : List (Int × List RawItem) → Int → RawItem → List (Int × List RawItem)
  | [], k, it => [(k, [it])]
  | (k', l) :: rest, k, it =>
    if k' = k then (k', l ++ [it]) :: rest else (k', l) :: insertGrp rest k it

/-- `function groupByLine(items)`: bucket items by their 2-unit y key; bucket order is
first-occurrence order, like a JS `Map`. -/
def groupByLine (items : List RawItem) : List (Int × List RawItem) :=
  items.foldl (fun m it => insertGrp m (yKeyOf it.y) it) []

/-- The number of bare 1-2-digit tokens on a line. -/
def countDay2 (line : List RawItem) : Nat :=
  (line.filter fun t => isDay2 t.str).length

/-- The accumulator loop of `pickBestDayHeaderLine`: strict `count > bestCount` update. -/
def pickLoop : List (List RawItem) → Option (List RawItem) → Nat → Option (List RawItem) × Nat
  | [], best, bc => (best, bc)
  | line :: rest, best, bc =>
    if bc < countDay2 line then pickLoop rest (some line) (countDay2 line)
    else pickLoop rest best bc

/-- `function pickBestDayHeaderLine(lines)` (src/app.js lines 53-60): the line with the
most day-number tokens, accepted only when that count is at least 20. -/
def pickBestDayHeaderLine (lines : List (List RawItem)) : Option (List RawItem) :=
  match pickLoop lines none 0 with
  | (best, bc) => if 20 ≤ bc then best else none

/-- Stable insertion sort by ascending x (JS `sort((a,b)=>a.x-b.x)` is stable). -/
def insertByX (t : RawItem) : List RawItem → List RawItem
  | [] => [t]
  | u :: us => if t.x ≤ u.x then t :: u :: us else u :: insertByX t us

def sortByX : List RawItem → List RawItem
  | [] => []
  | t :: ts => insertByX t (sortByX ts)

/-- Sort the bucket keys in descending numeric order (`sort((a,b)=>Number(b)-Number(a))`;
keys are distinct). -/
def insertDesc (k : Int) : List Int → List Int
  | [] => [k]
  | j :: js => if j ≤ k then k :: j :: js else j :: insertDesc k js

def sortDesc : List Int → List Int
  | [] => []
  | k :: ks => insertDesc k (sortDesc ks)

/-- `lines.get(yKey)` (always present for keys of the map). -/
def lineLookup (lines : List (Int × List RawItem)) (k : Int) : List RawItem :=
  match lines.find? (fun kv => kv.1 = k) with
  | some kv => kv.2
  | none => []

/-- The joined text of a line: `line.map(t=>t.str).join(" ").trim()` on the x-sorted line. -/
def lineText (line : List RawItem) : String :=
  jsTrim (joinSpace ((sortByX line).map fun t => t.str))

/-- `Number(t.str)` for a digit string. -/
def strToNat (s : String) : Nat :=
  s.data.foldl (fun n c => n * 10 + (c.toNat - 48)) 0

/-- One parsed employee row `{name, shift, codes}`; `codes` is the day→code object,
modelled as an insertion-ordered association list with overwriting update. -/
structure Employee where
  name : String
  shift : String
  codes : List (Nat × String)
  deriving DecidableEq

/-- The accumulating parse state of `parseSchedulePDF`: the employee list, the shift set
(insertion-ordered, like a JS `Set`), and the detected month/year (`null` = `none`). -/
structure ParseState where
  employees : List Employee
  shifts : List String
  detectedMonth : Option Nat
  detectedYear : Option Int
  deriving DecidableEq

def initState : ParseState := ⟨[], [], none, none⟩

/-- JS `Set.prototype.add`. -/
def setAdd (l : List String) (s : String) : List String :=
  if s ∈ l then l else l ++ [s]

/-- `codes[String(day)] = code`: overwrite in place or append. -/
def objSet (codes : List (Nat × String)) (k : Nat) (v : String) : List (Nat × String) :=
  if codes.any (fun p => p.1 = k) then
    codes.map (fun p => if p.1 = k then (k, v) else p)
  else codes ++ [(k, v)]

/-- `Math.min(...dayAnchors.map(d=>d.x))`; the list is non-empty whenever a header was
accepted (count at least 20), so the `[]` default is never consulted. -/
def minXOf : List DayAnchor → Int
  | [] => 0
  | a :: rest => rest.foldl (fun m b => min m b.x) a.x

/-- `0` is falsy in JS: the `!detectedYear` test (src/app.js line 139). -/
def jsFalsyOptInt : Option Int → Bool
  | none => true
  | some n => decide (n = 0)

/-- One iteration of the code-collection loop over a right-region token
(src/app.js lines 180-186): normalize the code, find the nearest day, apply the JS
falsiness guard `if (!day) continue` (day 0 is falsy) and the 1..31 range guard. -/
def codeStep (anchors : List DayAnchor) (codes : List (Nat × String)) (t : RawItem) :
    List (Nat × String) :=
  match normalizeCode t.str with
  | none => codes
  | some code =>
    match nearestDay t.x anchors with
    | none => codes
    | some day =>
      if day = 0 then codes
      else if 1 ≤ day ∧ day ≤ 31 then objSet codes day code
      else codes

/-- The code-collection loop over the right region of an employee row. -/
def buildCodes (anchors : List DayAnchor) (right : List RawItem) : List (Nat × String) :=
  right.foldl (codeStep anchors) []

/-- Well-formedness of one `codes` entry, as stated by the specification: the day is in
1..31 and the code is a non-empty normalized string — upper-cased, of the accepted
letters-then-digits shape, and not a bare 1-2-digit number. -/
def codeWF (p : Nat × String) : Prop :=
  1 ≤ p.1 ∧ p.1 ≤ 31 ∧ p.2 ≠ "" ∧ p.2 = jsUpper p.2 ∧ upperCodeShape p.2 = true ∧
    isDay2 p.2 = false

/-- The body of the per-line loop (src/app.js lines 158-190): returns the updated state
and the updated `currentShift`. -/
def processLine (anchors : List DayAnchor) (minDayX : Int) (st : ParseState)
    (currentShift : String) (line : List RawItem) : ParseState × String :=
  let sorted := sortByX line
  let text := lineText line
  match detectShiftLabel text with
  | some label => ({ st with shifts := setAdd st.shifts label }, label)
  | none =>
    if isNonEmployeeLine text then (st, currentShift)
    else
      let left := sorted.filter fun t => t.x < minDayX - 12
      let right := sorted.filter fun t => minDayX - 12 ≤ t.x
      let leftText := jsTrim (joinSpace (left.map fun t => t.str))
      if looksLikeEmployeeName leftText then
        ({ st with
            employees := st.employees ++
              [⟨cleanEmployeeName leftText, currentShift, buildCodes anchors right⟩],
            shifts := setAdd st.shifts currentShift },
          currentShift)
      else (st, currentShift)

/-- The per-line loop over the page's lines in processing order. -/
def processLines (anchors : List DayAnchor) (minDayX : Int) :
    List (List RawItem) → ParseState → String → ParseState
  | [], st, _ => st
  | line :: rest, st, currentShift =>
    match processLine anchors minDayX st currentShift line with
    | (st', cur') => processLines anchors minDayX rest st' cur'

/-- The month/year update on src/app.js lines 139-142: `if (m && !detectedYear) { ... }`. -/
def applyMY (st : ParseState) (o : Option (String × Int)) : ParseState :=
  match o with
  | some my =>
    if jsFalsyOptInt st.detectedYear then
      { st with detectedYear := some my.2, detectedMonth := monthNameToNumber my.1 }
    else st
  | none => st

/-- One iteration of the page loop of `parseSchedulePDF` (src/app.js lines 128-191):
month/year detection on the full page text, then header location; pages without an
accepted header contribute nothing further; `currentShift` starts at "Unknown" afresh on
every page. -/
def processPage (st : ParseState) (page : List RawItem) : ParseState :=
  let items := pageItems page
  let fullText := joinSpace (items.map fun i => i.str)
  let st1 := applyMY st (scanMY none fullText.data)
  let lines := groupByLine items
  match pickBestDayHeaderLine (lines.map fun kv => kv.2) with
  | none => st1
  | some headerLine =>
    let dayCols := sortByX (headerLine.filter fun t => isDay2 t.str)
    let dayAnchors := dayCols.map fun t => DayAnchor.mk (strToNat t.str) t.x
    let minDayX := minXOf dayAnchors
    let yKeys := sortDesc (lines.map fun kv => kv.1)
    processLines dayAnchors minDayX (yKeys.map fun k => lineLookup lines k) st1 "Unknown"

/-- `detectedMonth || fallback` / `detectedYear || fallback`: JS `||` with numeric
falsiness of 0. -/
def jsOrNat : Option Nat → Nat → Nat
  | some n, fb => if n = 0 then fb else n
  | none, fb => fb

def jsOrInt : Option Int → Int → Int
  | some n, fb => if n = 0 then fb else n
  | none, fb => fb

/-- Gregorian leap-year rule (for the positive years this program produces). -/
def isLeap (y : Int) : Bool :=
  (decide (y % 4 = 0) && !(decide (y % 100 = 0))) || decide (y % 400 = 0)

/-- `new Date(year, month, 0).getDate()` for a 1-12 `month`: the number of days in that
month of `year`, including the JS `Date` quirk that years 0..99 denote 1900+year. -/
def daysInMonthOf (year : Int) (month : Nat) : Nat :=
  let y := if 0 ≤ year ∧ year ≤ 99 then 1900 + year else year
  if month = 2 then (if isLeap y then 29 else 28)
  else if month = 4 ∨ month = 6 ∨ month = 9 ∨ month = 11 then 30
  else 31

/-- The parse result `{month, year, daysInMonth, employees, shifts}`. -/
structure ScheduleResult where
  month : Nat
  year : Int
  daysInMonth : Nat
  employees : List Employee
  shifts : List String
  deriving DecidableEq

/-- `async function parseSchedulePDF(file)` (src/app.js lines 120-198), as a function of
the per-page extracted items and of the current date's month/year (the `new Date()`
fallbacks on lines 193-194). -/
def parseSchedulePDF (pages : List (List RawItem)) (nowMonth : Nat) (nowYear : Int) :
    ScheduleResult :=
  let st := pages.foldl processPage initState
  let year := jsOrInt st.detectedYear nowYear
  let month := jsOrNat st.detectedMonth nowMonth
  ⟨month, year, daysInMonthOf year month, st.employees, st.shifts⟩

/-! ## Concrete example documents, used by witnesses and counterexamples -/

/-- A full day-number header line: tokens "1".."20" at x = 40, 46, ..., 154, all at y = 100. -/
def exHeader : List RawItem :=
  (List.range 20).map fun i => ⟨Nat.repr (i + 1), 40 + 6 * (i : Int), 100⟩

/-- A page with the header, then a "SHIFT B" label line, then an employee line "JOHN". -/
def exPageShift : List RawItem := exHeader ++ [⟨"SHIFT B", 0, 90⟩, ⟨"JOHN", 0, 80⟩]

/-- A page with the header and an employee line "MARY", but no shift label at all. -/
def exPageNoShift : List RawItem := exHeader ++ [⟨"MARY", 0, 80⟩]

/-- A page with the header and an employee row "ANA" carrying one code "FG" at x = 41,
one unit from the day-1 anchor. -/
def exPageCodes : List RawItem := exHeader ++ [⟨"ANA", 0, 80⟩, ⟨"FG", 41, 80⟩]

/-- A headerless page whose joined text is "January 2024". -/
def exPageTitle : List RawItem := [⟨"January", 0, 0⟩, ⟨"2024", 50, 0⟩]

/-- A headerless page whose joined text is "January 0000". -/
def exPageYear0 : List RawItem := [⟨"January", 0, 0⟩, ⟨"0000", 50, 0⟩]

/-- A line of 19 bare day-number tokens. -/
def exLine19 : List RawItem := (List.range 19).map fun i => ⟨Nat.repr (i + 1), (i : Int), 100⟩

/-- A line of 20 bare day-number tokens plus an unrelated word token. -/
def exLine20Mixed : List RawItem :=
  ((List.range 20).map fun i => (⟨Nat.repr (i + 1), (i : Int), 100⟩ : RawItem)) ++
    [⟨"SHIFT", 500, 100⟩]

/-- The month/year invariant carried by the parse state: month and year are detected
together, and a detected month is a calendar month number. -/
def myInv (st : ParseState) : Prop :=
  (st.detectedMonth = none ↔ st.detectedYear = none) ∧
  (∀ m, st.detectedMonth = some m → 1 ≤ m ∧ m ≤ 12)

/-! ## Normalized-string predicates (proof infrastructure for the cleanup lemmas) -/

/-- The first character, if any, is not whitespace. -/
def headNonWS : List Char → Bool
  | [] => true
  | c :: _ => !(isWS c)

/-- The last character, if any, is not whitespace. -/
def lastNonWS : List Char → Bool
  | [] => true
  | [c] => !(isWS c)
  | _ :: d :: rest => lastNonWS (d :: rest)

/-- Every whitespace character is a plain space and is followed by a non-whitespace
character (no run of two, no trailing whitespace). -/
def semiNorm : List Char → Bool
  | [] => true
  | [c] => !(isWS c) || decide (c = ' ')
  | c :: d :: rest => (!(isWS c) || (decide (c = ' ') && !(isWS d))) && semiNorm (d :: rest)

/-! ## Theorems for claim C5 -/

theorem classify_off_of_mem (c : String) (h : jsUpper (jsTrim c) ∈ OFF_CODES) :
    classify c = "off" := by
  have hne : ¬(jsUpper (jsTrim c) = "") := by
    intro e
    rw [e] at h
    simp [OFF_CODES] at h
  simp only [classify]
  rw [if_neg hne, if_pos h]

theorem classify_absent_of_mem (c : String) (h : jsUpper (jsTrim c) ∈ ABSENT_CODES) :
    classify c = "absent" := by
  have hne : ¬(jsUpper (jsTrim c) = "") := by
    intro e
    rw [e] at h
    simp [ABSENT_CODES] at h
  have hnoff : ¬(jsUpper (jsTrim c) ∈ OFF_CODES) := by
    simp only [ABSENT_CODES, List.mem_cons, List.not_mem_nil, or_false] at h
    rcases h with h | h | h | h <;> rw [h] <;> simp [OFF_CODES]
  simp only [classify]
  rw [if_neg hne, if_neg hnoff, if_pos h]

/-- C5: classify is a total deterministic function from strings to the three categories
working/off/absent: it upper-case-trims its argument, maps the empty result to working,
members of the off set to off, members of the absent set to absent, and everything else to
working; the six sample values of the claim evaluate as stated. -/
theorem classify_total_spec :
    (∀ c : String, classify c = "working" ∨ classify c = "off" ∨ classify c = "absent") ∧
    (∀ c : String, jsUpper (jsTrim c) = "" → classify c = "working") ∧
    (∀ c : String, jsUpper (jsTrim c) ∈ OFF_CODES → classify c = "off") ∧
    (∀ c : String, jsUpper (jsTrim c) ∈ ABSENT_CODES → classify c = "absent") ∧
    (∀ c : String, ¬(jsUpper (jsTrim c) = "") → ¬(jsUpper (jsTrim c) ∈ OFF_CODES) →
      ¬(jsUpper (jsTrim c) ∈ ABSENT_CODES) → classify c = "working") ∧
    (classify "" = "working" ∧ classify " " = "working" ∧ classify "fg" = "off" ∧
      classify "FG" = "off" ∧ classify "dm" = "absent" ∧ classify "xyz" = "working") := by
  refine ⟨?_, ?_, classify_off_of_mem, classify_absent_of_mem, ?_, by decide⟩
  · intro c
    simp only [classify]
    split
    · exact Or.inl rfl
    · split
      · exact Or.inr (Or.inl rfl)
      · split
        · exact Or.inr (Or.inr rfl)
        · exact Or.inl rfl
  · intro c h
    simp only [classify]
    rw [if_pos h]
  · intro c h1 h2 h3
    simp only [classify]
    rw [if_neg h1, if_neg h2, if_neg h3]

/-- C5 witness: the implicational parts of the classifier theorem applied at the concrete
code "fa", whose upper-case-trim is in the off set. -/
theorem classify_total_spec_w : classify "fa" = "off" :=
  classify_total_spec.2.2.1 "fa" (by decide)

/-! ## Lemmas about whitespace normalization, for claim C4 -/

theorem semiNorm_tail {c : Char} {l : List Char} (h : semiNorm (c :: l) = true) :
    semiNorm l = true := by
  cases l with
  | nil => rfl
  | cons d rest =>
    simp only [semiNorm, Bool.and_eq_true] at h
    exact h.2

theorem collapseAux_semiNorm (l : List Char) :
    semiNorm (collapseAux false l) = true ∧ semiNorm (collapseAux true l) = true ∧
      headNonWS (collapseAux true l) = true := by
  induction l with
  | nil => exact ⟨rfl, rfl, rfl⟩
  | cons c rest ih =>
    obtain ⟨ih1, ih2, ih3⟩ := ih
    by_cases hc : isWS c = true
    · have e1 : collapseAux false (c :: rest) = ' ' :: collapseAux true rest := by
        simp [collapseAux, hc]
      have e2 : collapseAux true (c :: rest) = collapseAux true rest := by
        simp [collapseAux, hc]
      refine ⟨?_, by rw [e2]; exact ih2, by rw [e2]; exact ih3⟩
      rw [e1]
      cases hX : collapseAux true rest with
      | nil => decide
      | cons d r =>
        rw [hX] at ih2 ih3
        simp only [headNonWS] at ih3
        simp only [semiNorm, Bool.and_eq_true]
        refine ⟨?_, ih2⟩
        simp [ih3]
    · have hc' : isWS c = false := by simpa using hc
      have e1 : collapseAux false (c :: rest) = c :: collapseAux false rest := by
        simp [collapseAux, hc']
      have e2 : collapseAux true (c :: rest) = c :: collapseAux false rest := by
        simp [collapseAux, hc']
      have base : semiNorm (c :: collapseAux false rest) = true := by
        cases hX : collapseAux false rest with
        | nil => simp [semiNorm, hc']
        | cons d r =>
          rw [hX] at ih1
          simp only [semiNorm, Bool.and_eq_true]
          exact ⟨by simp [hc'], ih1⟩
      exact ⟨by rw [e1]; exact base, by rw [e2]; exact base,
        by rw [e2]; simp [headNonWS, hc']⟩

theorem headNonWS_dropWhile (l : List Char) : headNonWS (l.dropWhile isWS) = true := by
  induction l with
  | nil => rfl
  | cons c rest ih =>
    by_cases hc : isWS c = true
    · rw [List.dropWhile_cons, if_pos hc]
      exact ih
    · rw [List.dropWhile_cons, if_neg hc]
      simp only [headNonWS]
      simpa using hc

theorem semiNorm_dropWhile {l : List Char} (h : semiNorm l = true) :
    semiNorm (l.dropWhile isWS) = true := by
  induction l with
  | nil => rfl
  | cons c rest ih =>
    by_cases hc : isWS c = true
    · rw [List.dropWhile_cons, if_pos hc]
      exact ih (semiNorm_tail h)
    · rw [List.dropWhile_cons, if_neg hc]
      exact h

theorem dropWhile_eq_self_of_headNonWS {l : List Char} (h : headNonWS l = true) :
    l.dropWhile isWS = l := by
  cases l with
  | nil => rfl
  | cons c rest =>
    simp only [headNonWS, Bool.not_eq_true'] at h
    rw [List.dropWhile_cons, if_neg (by simp [h])]

theorem trimRight_lastNonWS (l : List Char) : lastNonWS (trimRight l) = true := by
  induction l with
  | nil => rfl
  | cons c rest ih =>
    simp only [trimRight]
    cases hR : trimRight rest with
    | nil =>
      simp only [List.isEmpty_nil, if_true]
      by_cases hc : isWS c = true
      · rw [if_pos hc]; rfl
      · rw [if_neg hc]
        simp only [lastNonWS]
        simpa using hc
    | cons d r =>
      rw [hR] at ih
      simp only [List.isEmpty_cons, if_false, Bool.false_eq_true]
      simpa only [lastNonWS] using ih

theorem trimRight_struct (c : Char) (l : List Char) :
    trimRight (c :: l) = [] ∨ trimRight (c :: l) = c :: trimRight l ∨
      (trimRight l = [] ∧ trimRight (c :: l) = [c]) := by
  simp only [trimRight]
  cases hR : trimRight l with
  | nil =>
    by_cases hc : isWS c = true
    · simp [hc]
    · simp [hc]
  | cons d r => simp

theorem trimRight_semiNorm {l : List Char} (h : semiNorm l = true) :
    semiNorm (trimRight l) = true := by
  induction l with
  | nil => rfl
  | cons c rest ih =>
    have hsingle : (!(isWS c) || decide (c = ' ')) = true := by
      cases rest with
      | nil => exact h
      | cons d r2 =>
        simp only [semiNorm, Bool.and_eq_true, Bool.or_eq_true, Bool.and_eq_true] at h
        rcases h.1 with hL | hR
        · simp [hL]
        · simp [hR.1]
    simp only [trimRight]
    cases hR : trimRight rest with
    | nil =>
      simp only [List.isEmpty_nil, if_true]
      by_cases hc : isWS c = true
      · rw [if_pos hc]; rfl
      · rw [if_neg hc]
        simpa [semiNorm] using hsingle
    | cons d r =>
      simp only [List.isEmpty_cons, if_false, Bool.false_eq_true]
      have hsr : semiNorm (d :: r) = true := by
        rw [← hR]
        exact ih (semiNorm_tail h)
      cases rest with
      | nil => simp [trimRight] at hR
      | cons e rest2 =>
        have hhead : d = e := by
          rcases trimRight_struct e rest2 with h1 | h1 | h1
          · rw [h1] at hR; cases hR
          · rw [h1] at hR
            exact (List.cons.injEq _ _ _ _ ▸ hR).1.symm
          · rw [h1.2] at hR
            exact (List.cons.injEq _ _ _ _ ▸ hR).1.symm
        simp only [semiNorm, Bool.and_eq_true]
        refine ⟨?_, hsr⟩
        simp only [semiNorm, Bool.and_eq_true] at h
        rw [hhead]
        exact h.1

theorem trimRight_headNonWS {l : List Char} (h : headNonWS l = true) :
    headNonWS (trimRight l) = true := by
  cases l with
  | nil => rfl
  | cons c rest =>
    rcases trimRight_struct c rest with h1 | h1 | h1
    · rw [h1]; rfl
    · rw [h1]; exact h
    · rw [h1.2]; exact h

theorem trimRight_eq_self_of_lastNonWS {l : List Char} (h : lastNonWS l = true) :
    trimRight l = l := by
  induction l with
  | nil => rfl
  | cons c rest ih =>
    cases rest with
    | nil =>
      simp only [lastNonWS, Bool.not_eq_true'] at h
      simp [trimRight, h]
    | cons d r2 =>
      have e : trimRight (d :: r2) = d :: r2 := ih (by simpa only [lastNonWS] using h)
      show (if (trimRight (d :: r2)).isEmpty = true then (if isWS c = true then [] else [c])
            else c :: trimRight (d :: r2)) = c :: d :: r2
      rw [e]
      simp

theorem collapseAux_eq_self {l : List Char} (h : semiNorm l = true) :
    collapseAux false l = l ∧ (headNonWS l = true → collapseAux true l = l) := by
  induction l with
  | nil => exact ⟨rfl, fun _ => rfl⟩
  | cons c rest ih =>
    by_cases hc : isWS c = true
    · -- c is whitespace: semiNorm forces c = ' ' and the next character non-whitespace
      have hrest : semiNorm rest = true := semiNorm_tail h
      have hcsp : c = ' ' := by
        cases rest with
        | nil =>
          simp only [semiNorm, Bool.or_eq_true, Bool.not_eq_true'] at h
          rcases h with h | h
          · rw [h] at hc; cases hc
          · simpa using h
        | cons d r2 =>
          simp only [semiNorm, Bool.and_eq_true, Bool.or_eq_true, Bool.not_eq_true'] at h
          rcases h.1 with h1 | h1
          · rw [h1] at hc; cases hc
          · have := h1.1; simpa using this
      have hnext : headNonWS rest = true := by
        cases rest with
        | nil => rfl
        | cons d r2 =>
          simp only [semiNorm, Bool.and_eq_true, Bool.or_eq_true, Bool.not_eq_true'] at h
          rcases h.1 with h1 | h1
          · rw [h1] at hc; cases hc
          · simp [headNonWS, h1.2]
      have e1 : collapseAux false (c :: rest) = ' ' :: collapseAux true rest := by
        simp [collapseAux, hc]
      refine ⟨?_, ?_⟩
      · rw [e1, (ih hrest).2 hnext, hcsp]
      · intro hhead
        simp only [headNonWS, Bool.not_eq_true'] at hhead
        rw [hhead] at hc
        cases hc
    · have hc' : isWS c = false := by simpa using hc
      have e1 : collapseAux false (c :: rest) = c :: collapseAux false rest := by
        simp [collapseAux, hc']
      have e2 : collapseAux true (c :: rest) = c :: collapseAux false rest := by
        simp [collapseAux, hc']
      have hrest : collapseAux false rest = rest := (ih (semiNorm_tail h)).1
      exact ⟨by rw [e1, hrest], fun _ => by rw [e2, hrest]⟩

theorem wsTokTail_cons_of_ws {c : Char} {l : List Char} (hc : isWS c = true)
    (h : wsTokTail l = true) : wsTokTail (c :: l) = true := by
  cases l with
  | nil => cases h
  | cons d r =>
    simp only [wsTokTail, Bool.and_eq_true] at h ⊢
    refine ⟨hc, ?_⟩
    rw [List.dropWhile_cons, if_pos hc]
    exact h.2

theorem stripSuffix_struct (c : Char) (l : List Char) :
    (wsTokTail (c :: l) = true ∧ stripSuffix (c :: l) = []) ∨
      (wsTokTail (c :: l) = false ∧ stripSuffix (c :: l) = c :: stripSuffix l) := by
  by_cases h : wsTokTail (c :: l) = true
  · exact Or.inl ⟨h, by simp [stripSuffix, h]⟩
  · have h' : wsTokTail (c :: l) = false := by simpa using h
    exact Or.inr ⟨h', by simp [stripSuffix, h']⟩

theorem stripSuffix_keeps_norm :
    ∀ l : List Char, semiNorm l = true → lastNonWS l = true →
      semiNorm (stripSuffix l) = true ∧ lastNonWS (stripSuffix l) = true := by
  intro l
  induction l with
  | nil => exact fun _ _ => ⟨rfl, rfl⟩
  | cons c rest ih =>
    intro h1 h2
    rcases stripSuffix_struct c rest with ⟨_, hE⟩ | ⟨hM, hE⟩
    · rw [hE]; exact ⟨rfl, rfl⟩
    · rw [hE]
      have hrest1 : semiNorm rest = true := semiNorm_tail h1
      have hrest2 : lastNonWS rest = true := by
        cases rest with
        | nil => rfl
        | cons d r2 => simpa only [lastNonWS] using h2
      obtain ⟨ihs, ihl⟩ := ih hrest1 hrest2
      cases hS : stripSuffix rest with
      | nil =>
        -- the kept head must itself be non-whitespace
        have hcW : isWS c = false := by
          cases rest with
          | nil =>
            simpa only [lastNonWS, Bool.not_eq_true'] using h2
          | cons d r2 =>
            rcases stripSuffix_struct d r2 with ⟨hM2, _⟩ | ⟨_, hE2⟩
            · by_contra hcc
              have hcc' : isWS c = true := by simpa using hcc
              rw [wsTokTail_cons_of_ws hcc' hM2] at hM
              cases hM
            · rw [hE2] at hS; cases hS
        exact ⟨by simp [semiNorm, hcW], by simp [lastNonWS, hcW]⟩
      | cons d r3 =>
        cases rest with
        | nil => simp [stripSuffix] at hS
        | cons e rest2 =>
          have hde : d = e := by
            rcases stripSuffix_struct e rest2 with ⟨_, hE2⟩ | ⟨_, hE2⟩
            · rw [hE2] at hS; cases hS
            · rw [hE2] at hS
              exact (List.cons.injEq _ _ _ _ ▸ hS).1.symm
          rw [hS] at ihs ihl
          constructor
          · simp only [semiNorm, Bool.and_eq_true]
            refine ⟨?_, ihs⟩
            simp only [semiNorm, Bool.and_eq_true] at h1
            rw [hde]
            exact h1.1
          · simpa only [lastNonWS] using ihl

theorem stripSuffix_headNonWS {l : List Char} (h : headNonWS l = true) :
    headNonWS (stripSuffix l) = true := by
  cases l with
  | nil => rfl
  | cons c rest =>
    rcases stripSuffix_struct c rest with ⟨_, hE⟩ | ⟨_, hE⟩
    · rw [hE]; rfl
    · rw [hE]; exact h

theorem stripSuffix_eq_self_of_noMatch :
    ∀ l : List Char, hasTailMatch l = false → stripSuffix l = l := by
  intro l
  induction l with
  | nil => exact fun _ => rfl
  | cons c rest ih =>
    intro h
    simp only [hasTailMatch, Bool.or_eq_false_iff] at h
    simp only [stripSuffix, h.1, Bool.false_eq_true, if_false]
    rw [ih h.2]

theorem jsTrim_mk_eq_self {l : List Char} (h1 : headNonWS l = true)
    (h2 : lastNonWS l = true) : jsTrim ⟨l⟩ = ⟨l⟩ := by
  simp only [jsTrim]
  rw [dropWhile_eq_self_of_headNonWS h1, trimRight_eq_self_of_lastNonWS h2]

/-- The output of `cleanEmployeeName` is fully normalized: no leading or trailing
whitespace, and every internal whitespace run is a single plain space. -/
theorem cleanEmployeeName_norm (s : String) :
    headNonWS (cleanEmployeeName s).data = true ∧
      semiNorm (cleanEmployeeName s).data = true ∧
      lastNonWS (cleanEmployeeName s).data = true ∧
      cleanEmployeeName s = ⟨stripSuffix (jsTrim (collapseWS s)).data⟩ := by
  have hcoll : semiNorm (collapseWS s).data = true := (collapseAux_semiNorm s.data).1
  -- the trimmed collapse is fully normalized
  have ht_head : headNonWS (jsTrim (collapseWS s)).data = true :=
    trimRight_headNonWS (headNonWS_dropWhile _)
  have ht_semi : semiNorm (jsTrim (collapseWS s)).data = true :=
    trimRight_semiNorm (semiNorm_dropWhile hcoll)
  have ht_last : lastNonWS (jsTrim (collapseWS s)).data = true :=
    trimRight_lastNonWS _
  -- stripping preserves normalization
  obtain ⟨hu_semi, hu_last⟩ := stripSuffix_keeps_norm _ ht_semi ht_last
  have hu_head : headNonWS (stripSuffix (jsTrim (collapseWS s)).data) = true :=
    stripSuffix_headNonWS ht_head
  -- hence the final trim is the identity
  have e : cleanEmployeeName s = ⟨stripSuffix (jsTrim (collapseWS s)).data⟩ :=
    jsTrim_mk_eq_self hu_head hu_last
  rw [e]
  exact ⟨hu_head, hu_semi, hu_last, rfl⟩

/-- C4 counterexample: name cleanup is not idempotent as claimed.  On "A 1 2" one
application strips only the trailing " 2" (the regex is end-anchored and matches once),
giving "A 1"; a second application strips " 1", giving "A". -/
theorem cleanName_idem_cex :
    cleanEmployeeName (cleanEmployeeName "A 1 2") ≠ cleanEmployeeName "A 1 2" ∧
      cleanEmployeeName "A 1 2" = "A 1" ∧ cleanEmployeeName "A 1" = "A" := by decide

/-- C4 (amended): name cleanup strips at most one trailing bare 1-2-digit-number/"fe"
token per application, so it is not idempotent in general; it is idempotent on exactly
those inputs whose cleaned result no longer ends in whitespace followed by such a token
(no further match of the strip regex). -/
theorem cleanName_idem_cond (s : String)
    (h : hasTailMatch (cleanEmployeeName s).data = false) :
    cleanEmployeeName (cleanEmployeeName s) = cleanEmployeeName s := by
  obtain ⟨h_head, h_semi, h_last, _⟩ := cleanEmployeeName_norm s
  -- collapsing the cleaned string is the identity (structure eta: ⟨t.data⟩ is t)
  have hc : collapseWS (cleanEmployeeName s) = cleanEmployeeName s := by
    simp only [collapseWS]
    rw [(collapseAux_eq_self h_semi).1]
  -- trimming the cleaned string is the identity
  have htrim : jsTrim (cleanEmployeeName s) = cleanEmployeeName s :=
    jsTrim_mk_eq_self h_head h_last
  show jsTrim ⟨stripSuffix (jsTrim (collapseWS (cleanEmployeeName s))).data⟩ = _
  rw [hc, htrim, stripSuffix_eq_self_of_noMatch _ h]
  exact htrim

/-- C4 witness: on "JOHN SMITH" the cleaned name has no strippable tail, so cleanup is
idempotent there. -/
theorem cleanName_idem_cond_w :
    cleanEmployeeName (cleanEmployeeName "JOHN SMITH") = cleanEmployeeName "JOHN SMITH" :=
  cleanName_idem_cond "JOHN SMITH" (by decide)

/-! ## Lemmas about nearest-day lookup, for claims C3 and C10 -/

theorem nearestLoop_spec (x : Int) :
    ∀ (l : List DayAnchor) (b : Nat) (bd : Int),
      ∃ b' d', nearestLoop x l (some b) (some bd) = (some b', some d') ∧
        d' ≤ bd ∧ (∀ a ∈ l, d' ≤ absI (x - a.x)) ∧
        ((b' = b ∧ d' = bd) ∨
          (∃ l1 a l2, l = l1 ++ a :: l2 ∧ b' = a.day ∧ d' = absI (x - a.x) ∧ d' < bd ∧
            (∀ c ∈ l1, d' < absI (x - c.x)))) := by
  intro l
  induction l with
  | nil =>
    intro b bd
    exact ⟨b, bd, rfl, le_refl _, by simp, Or.inl ⟨rfl, rfl⟩⟩
  | cons a rest ih =>
    intro b bd
    by_cases hlt : absI (x - a.x) < bd
    · obtain ⟨b', d', he, hle, hall, hcase⟩ := ih a.day (absI (x - a.x))
      refine ⟨b', d', ?_, le_of_lt (lt_of_le_of_lt hle hlt), ?_, ?_⟩
      · show nearestLoop x (a :: rest) (some b) (some bd) = _
        simp only [nearestLoop, if_pos hlt]
        exact he
      · intro c hc
        rcases List.mem_cons.mp hc with rfl | hc
        · exact hle
        · exact hall c hc
      · rcases hcase with ⟨hb, hd⟩ | ⟨l1, a2, l2, hdec, hb, hd, hlt2, hpre⟩
        · exact Or.inr ⟨[], a, rest, rfl, hb, hd, hd ▸ hlt, by simp⟩
        · refine Or.inr ⟨a :: l1, a2, l2, by rw [hdec, List.cons_append], hb, hd, lt_trans hlt2 hlt, ?_⟩
          intro c hc
          rcases List.mem_cons.mp hc with rfl | hc
          · exact hlt2
          · exact hpre c hc
    · have hge : bd ≤ absI (x - a.x) := le_of_not_lt hlt
      obtain ⟨b', d', he, hle, hall, hcase⟩ := ih b bd
      refine ⟨b', d', ?_, hle, ?_, ?_⟩
      · show nearestLoop x (a :: rest) (some b) (some bd) = _
        simp only [nearestLoop, if_neg hlt]
        exact he
      · intro c hc
        rcases List.mem_cons.mp hc with rfl | hc
        · exact le_trans hle hge
        · exact hall c hc
      · rcases hcase with ⟨hb, hd⟩ | ⟨l1, a2, l2, hdec, hb, hd, hlt2, hpre⟩
        · exact Or.inl ⟨hb, hd⟩
        · refine Or.inr ⟨a :: l1, a2, l2, by rw [hdec, List.cons_append], hb, hd, hlt2, ?_⟩
          intro c hc
          rcases List.mem_cons.mp hc with rfl | hc
          · exact lt_of_lt_of_le hlt2 hge
          · exact hpre c hc

/-- Characterization of a successful lookup: the result is the day of the first anchor
(in list order) attaining the minimum distance, and that distance is below 12. -/
theorem nearestDay_some_spec (x : Int) (anchors : List DayAnchor) (b : Nat)
    (h : nearestDay x anchors = some b) :
    ∃ l1 a l2, anchors = l1 ++ a :: l2 ∧ a.day = b ∧ absI (x - a.x) < 12 ∧
      (∀ c ∈ anchors, absI (x - a.x) ≤ absI (x - c.x)) ∧
      (∀ c ∈ l1, absI (x - a.x) < absI (x - c.x)) := by
  cases anchors with
  | nil => cases h
  | cons a0 rest =>
    obtain ⟨b', d', he, hle, hall, hcase⟩ := nearestLoop_spec x rest a0.day (absI (x - a0.x))
    have hday : nearestDay x (a0 :: rest) =
        (if d' < 12 then some b' else none) := by
      simp only [nearestDay, nearestLoop, he]
    rw [hday] at h
    by_cases h12 : d' < 12
    · rw [if_pos h12] at h
      have hb : b' = b := by injection h
      rcases hcase with ⟨hbb, hd⟩ | ⟨l1, a2, l2, hdec, hbb, hd, hlt2, hpre⟩
      · -- the head anchor itself stayed the best
        refine ⟨[], a0, rest, rfl, by rw [← hbb]; exact hb, by rw [← hd]; exact h12, ?_, by simp⟩
        intro c hc
        rcases List.mem_cons.mp hc with rfl | hc
        · exact le_refl _
        · rw [← hd]; exact hall c hc
      · -- some later anchor strictly improved; all earlier ones are strictly farther
        refine ⟨a0 :: l1, a2, l2, by rw [hdec, List.cons_append], by rw [← hbb]; exact hb,
          by rw [← hd]; exact h12, ?_, ?_⟩
        · intro c hc
          rcases List.mem_cons.mp hc with rfl | hc
          · rw [← hd]; exact le_of_lt hlt2
          · rw [← hd]; exact hall c hc
        · intro c hc
          rcases List.mem_cons.mp hc with rfl | hc
          · rw [← hd]; exact hlt2
          · rw [← hd]; exact hpre c hc
    · rw [if_neg h12] at h
      cases h

/-- C3 (amended): for every token position and non-empty anchor list, `nearestDay`
assigns the token to an anchor at minimum absolute horizontal distance, and discards it
exactly when that minimum distance is at least 12 (the tolerance test is strict
`bestDist < 12`): distance 0 maps to its anchor, 11 maps to the nearest anchor, and a
token 12 or more units from every anchor maps to no day. -/
theorem nearestDay_tolerance (x : Int) (anchors : List DayAnchor) (h : anchors ≠ []) :
    (nearestDay x anchors = none ↔ ∀ a ∈ anchors, 12 ≤ absI (x - a.x)) ∧
    (∀ b, nearestDay x anchors = some b →
      ∃ a ∈ anchors, a.day = b ∧ absI (x - a.x) < 12 ∧
        ∀ c ∈ anchors, absI (x - a.x) ≤ absI (x - c.x)) := by
  constructor
  · cases anchors with
    | nil => exact absurd rfl h
    | cons a0 rest =>
      obtain ⟨b', d', he, hle, hall, hcase⟩ := nearestLoop_spec x rest a0.day (absI (x - a0.x))
      have hday : nearestDay x (a0 :: rest) = (if d' < 12 then some b' else none) := by
        simp only [nearestDay, nearestLoop, he]
      rw [hday]
      constructor
      · intro hnone a ha
        have h12 : ¬(d' < 12) := by
          intro hlt
          rw [if_pos hlt] at hnone
          cases hnone
        have h12' : (12 : Int) ≤ d' := le_of_not_lt h12
        rcases List.mem_cons.mp ha with rfl | ha
        · exact le_trans h12' hle
        · exact le_trans h12' (hall a ha)
      · intro hall12
        have hd'mem : ∃ a ∈ a0 :: rest, d' = absI (x - a.x) := by
          rcases hcase with ⟨_, hd⟩ | ⟨l1, a2, l2, hdec, _, hd, _, _⟩
          · exact ⟨a0, List.mem_cons_self _ _, hd⟩
          · exact ⟨a2, by rw [hdec]; simp, hd⟩
        obtain ⟨a, ha, hd⟩ := hd'mem
        have h12 : (12 : Int) ≤ d' := hd ▸ hall12 a ha
        rw [if_neg (not_lt.mpr h12)]
  · intro b hb
    obtain ⟨l1, a, l2, hdec, hday, h12, hmin, _⟩ := nearestDay_some_spec x anchors b hb
    exact ⟨a, by rw [hdec]; simp, hday, h12, hmin⟩

/-- C3 witness: a token exactly at the x of the day-3 anchor maps to day 3, and a token
11 units from the day-1 anchor (and farther from the day-2 anchor) maps to day 1. -/
theorem nearestDay_tolerance_w :
    (∃ a ∈ [DayAnchor.mk 3 40, DayAnchor.mk 4 66], a.day = 3 ∧ absI (40 - a.x) < 12 ∧
      ∀ c ∈ [DayAnchor.mk 3 40, DayAnchor.mk 4 66], absI (40 - a.x) ≤ absI (40 - c.x)) ∧
    (∃ a ∈ [DayAnchor.mk 1 40, DayAnchor.mk 2 62], a.day = 1 ∧ absI (51 - a.x) < 12 ∧
      ∀ c ∈ [DayAnchor.mk 1 40, DayAnchor.mk 2 62], absI (51 - a.x) ≤ absI (51 - c.x)) :=
  ⟨(nearestDay_tolerance 40 _ (by decide)).2 3 (by decide),
   (nearestDay_tolerance 51 _ (by decide)).2 1 (by decide)⟩

/-- C3 counterexample: the claim says a token is discarded exactly when the minimum
distance exceeds 12, but a token at distance exactly 12 from its only anchor is already
discarded (`bestDist < 12` is strict). -/
theorem nearestDay_tolerance_cex :
    nearestDay 12 [DayAnchor.mk 5 0] = none ∧ absI (12 - 0) = 12 ∧
      ¬(12 < absI ((12 : Int) - 0)) := by decide

/-- C10: nearest-day lookup is deterministic under ties: whenever it returns a day for a
list of anchors sorted by ascending x, that day belongs to a minimum-distance anchor whose
x is smallest among (hence which occurs first of) all anchors at that minimal distance. -/
theorem nearestDay_tie_first (x : Int) (anchors : List DayAnchor)
    (hs : List.Pairwise (fun a b : DayAnchor => a.x ≤ b.x) anchors)
    (b : Nat) (h : nearestDay x anchors = some b) :
    ∃ a ∈ anchors, a.day = b ∧ (∀ c ∈ anchors, absI (x - a.x) ≤ absI (x - c.x)) ∧
      (∀ c ∈ anchors, absI (x - c.x) = absI (x - a.x) → a.x ≤ c.x) := by
  obtain ⟨l1, a, l2, hdec, hday, _, hmin, hpre⟩ := nearestDay_some_spec x anchors b h
  refine ⟨a, by rw [hdec]; simp, hday, hmin, ?_⟩
  intro c hc hceq
  rw [hdec] at hs hc
  rcases List.mem_append.mp hc with hc1 | hc2
  · exact absurd hceq (ne_of_gt (hpre c hc1))
  · rcases List.mem_cons.mp hc2 with rfl | hc2
    · exact le_refl _
    · have hp2 : List.Pairwise (fun a b : DayAnchor => a.x ≤ b.x) (a :: l2) :=
        (List.pairwise_append.mp hs).2.1
      exact (List.pairwise_cons.mp hp2).1 c hc2

/-- C10 witness: with anchors at x = 0 (day 1) and x = 10 (day 2) and a token at x = 5,
both anchors are 5 away; the first (smallest-x) anchor wins and day 1 is returned. -/
theorem nearestDay_tie_first_w :
    ∃ a ∈ [DayAnchor.mk 1 0, DayAnchor.mk 2 10], a.day = 1 ∧
      (∀ c ∈ [DayAnchor.mk 1 0, DayAnchor.mk 2 10], absI (5 - a.x) ≤ absI (5 - c.x)) ∧
      (∀ c ∈ [DayAnchor.mk 1 0, DayAnchor.mk 2 10], absI (5 - c.x) = absI (5 - a.x) →
        a.x ≤ c.x) :=
  nearestDay_tie_first 5 _ (by decide) 1 (by decide)

/-! ## Lemmas about the header locator, for claim C6 -/

theorem pickLoop_spec (l : List (List RawItem)) :
    ∀ (best : Option (List RawItem)) (bc : Nat),
      (∀ L ∈ l, countDay2 L ≤ (pickLoop l best bc).2) ∧
      bc ≤ (pickLoop l best bc).2 ∧
      (((pickLoop l best bc).1 = best ∧ (pickLoop l best bc).2 = bc) ∨
        (∃ L ∈ l, (pickLoop l best bc).1 = some L ∧ (pickLoop l best bc).2 = countDay2 L ∧
          bc < countDay2 L)) := by
  induction l with
  | nil => exact fun best bc => ⟨by simp, le_refl _, Or.inl ⟨rfl, rfl⟩⟩
  | cons line rest ih =>
    intro best bc
    by_cases hlt : bc < countDay2 line
    · have he : pickLoop (line :: rest) best bc =
          pickLoop rest (some line) (countDay2 line) := by
        simp only [pickLoop, if_pos hlt]
      obtain ⟨hall, hle, hcase⟩ := ih (some line) (countDay2 line)
      rw [he]
      refine ⟨?_, le_trans (le_of_lt hlt) hle, ?_⟩
      · intro L hL
        rcases List.mem_cons.mp hL with rfl | hL
        · exact hle
        · exact hall L hL
      · rcases hcase with ⟨h1, h2⟩ | ⟨L, hL, h1, h2, h3⟩
        · exact Or.inr ⟨line, List.mem_cons_self _ _, h1, h2, hlt⟩
        · exact Or.inr ⟨L, List.mem_cons_of_mem _ hL, h1, h2, lt_trans hlt h3⟩
    · have he : pickLoop (line :: rest) best bc = pickLoop rest best bc := by
        simp only [pickLoop, if_neg hlt]
      obtain ⟨hall, hle, hcase⟩ := ih best bc
      rw [he]
      refine ⟨?_, hle, ?_⟩
      · intro L hL
        rcases List.mem_cons.mp hL with rfl | hL
        · exact le_trans (le_of_not_lt hlt) hle
        · exact hall L hL
      · rcases hcase with ⟨h1, h2⟩ | ⟨L, hL, h1, h2, h3⟩
        · exact Or.inl ⟨h1, h2⟩
        · exact Or.inr ⟨L, List.mem_cons_of_mem _ hL, h1, h2, h3⟩

/-- C6: header acceptance is monotone in the count of bare 1-2-digit tokens with hard
threshold 20: the locator returns no header exactly when every line has fewer than 20
such tokens, and a returned header is a line of the page whose count is maximal and at
least 20, regardless of any other tokens present on it. -/
theorem header_threshold_spec (lines : List (List RawItem)) :
    (pickBestDayHeaderLine lines = none ↔ ∀ L ∈ lines, countDay2 L < 20) ∧
    (∀ L, pickBestDayHeaderLine lines = some L →
      L ∈ lines ∧ 20 ≤ countDay2 L ∧ ∀ M ∈ lines, countDay2 M ≤ countDay2 L) := by
  obtain ⟨hall, -, hcase⟩ := pickLoop_spec lines none 0
  have hbest : pickBestDayHeaderLine lines =
      (if 20 ≤ (pickLoop lines none 0).2 then (pickLoop lines none 0).1 else none) := rfl
  constructor
  · constructor
    · intro hnone L hL
      by_cases h20 : 20 ≤ (pickLoop lines none 0).2
      · rw [hbest, if_pos h20] at hnone
        rcases hcase with ⟨-, h2⟩ | ⟨M, _, h1, -, -⟩
        · omega
        · rw [h1] at hnone
          cases hnone
      · exact lt_of_le_of_lt (hall L hL) (by omega)
    · intro hlt
      have h20 : ¬(20 ≤ (pickLoop lines none 0).2) := by
        rcases hcase with ⟨-, h2⟩ | ⟨M, hM, -, h2, -⟩
        · omega
        · have := hlt M hM
          omega
      rw [hbest, if_neg h20]
  · intro L hL
    by_cases h20 : 20 ≤ (pickLoop lines none 0).2
    · rw [hbest, if_pos h20] at hL
      rcases hcase with ⟨h1, h2⟩ | ⟨M, hM, h1, h2, -⟩
      · omega
      · rw [h1] at hL
        have hLM : L = M := by injection hL with h; exact h.symm
        subst hLM
        exact ⟨hM, by omega, fun M' hM' => h2 ▸ hall M' hM'⟩
    · rw [hbest, if_neg h20] at hL
      cases hL

/-- C6 witness: a best line with 19 day-number tokens is rejected (via the theorem), and
one with 20 day-number tokens is accepted even with an unrelated word token on it. -/
theorem header_threshold_spec_w :
    pickBestDayHeaderLine [exLine19] = none ∧
      pickBestDayHeaderLine [exLine20Mixed] = some exLine20Mixed :=
  ⟨(header_threshold_spec [exLine19]).1.mpr (by decide), by decide⟩

/-! ## Frame lemmas for headerless pages (claim C7) and the shift state (claim C1) -/

theorem applyMY_frame (st : ParseState) (o : Option (String × Int)) :
    (applyMY st o).employees = st.employees ∧ (applyMY st o).shifts = st.shifts := by
  cases o with
  | none => exact ⟨rfl, rfl⟩
  | some my =>
    by_cases hf : jsFalsyOptInt st.detectedYear = true
    · simp [applyMY, hf]
    · simp [applyMY, hf]

theorem processPage_none_frame (st : ParseState) (page : List RawItem)
    (h : pickBestDayHeaderLine ((groupByLine (pageItems page)).map fun kv => kv.2) = none) :
    (processPage st page).employees = st.employees ∧
      (processPage st page).shifts = st.shifts := by
  have he : processPage st page =
      applyMY st (scanMY none (joinSpace ((pageItems page).map fun i => i.str)).data) := by
    simp only [processPage, h]
  rw [he]
  exact applyMY_frame st _

/-- C7 (amended): a page on which no line reaches the 20-count header threshold
contributes no employees and no shifts — but month/year detection still runs on such a
page (src/app.js lines 137-142 precede the header check), so the detected month/year may
change. -/
theorem headerless_page_frame (st : ParseState) (page : List RawItem)
    (h : pickBestDayHeaderLine ((groupByLine (pageItems page)).map fun kv => kv.2) = none) :
    (processPage st page).employees = st.employees ∧
      (processPage st page).shifts = st.shifts :=
  processPage_none_frame st page h

/-- C7 witness: the headerless title page contributes no employees and no shifts. -/
theorem headerless_page_frame_w :
    (processPage initState exPageTitle).employees = initState.employees ∧
      (processPage initState exPageTitle).shifts = initState.shifts :=
  headerless_page_frame initState exPageTitle (by decide)

/-- C7 counterexample: the claim also says such a page leaves the detected month/year
unchanged, but a headerless page containing "January 2024" sets them (and the final
result's year becomes 2024 rather than the system year 2025). -/
theorem headerless_page_cex :
    pickBestDayHeaderLine ((groupByLine (pageItems exPageTitle)).map fun kv => kv.2) =
        none ∧
      initState.detectedYear = none ∧ initState.detectedMonth = none ∧
      (processPage initState exPageTitle).detectedYear = some 2024 ∧
      (processPage initState exPageTitle).detectedMonth = some 1 ∧
      (parseSchedulePDF [exPageTitle] 7 2025).year = 2024 := by decide

theorem detectShiftLabel_empty_line : detectShiftLabel (lineText []) = none := by decide

theorem processLine_no_label (anchors : List DayAnchor) (minX : Int) (st : ParseState)
    (cur : String) (line : List RawItem) (h : detectShiftLabel (lineText line) = none) :
    (processLine anchors minX st cur line).2 = cur ∧
      ((processLine anchors minX st cur line).1.employees = st.employees ∨
        ∃ nm codes, (processLine anchors minX st cur line).1.employees =
          st.employees ++ [⟨nm, cur, codes⟩]) := by
  simp only [processLine, h]
  by_cases h1 : isNonEmployeeLine (lineText line) = true
  · simp only [h1, if_true]
    exact ⟨trivial, Or.inl trivial⟩
  · simp only [eq_false_of_ne_true h1, Bool.false_eq_true, if_false]
    by_cases h2 : looksLikeEmployeeName (jsTrim (joinSpace
        (((sortByX line).filter fun t => t.x < minX - 12).map fun t => t.str))) = true
    · simp only [h2, if_true]
      exact ⟨trivial, Or.inr ⟨_, _, rfl⟩⟩
    · simp only [eq_false_of_ne_true h2, Bool.false_eq_true, if_false]
      exact ⟨trivial, Or.inl trivial⟩

theorem processLines_unknown (anchors : List DayAnchor) (minX : Int) :
    ∀ (ls : List (List RawItem)) (st : ParseState),
      (∀ l ∈ ls, detectShiftLabel (lineText l) = none) →
      ∀ e ∈ (processLines anchors minX ls st "Unknown").employees,
        e ∈ st.employees ∨ e.shift = "Unknown" := by
  intro ls
  induction ls with
  | nil => exact fun st _ e he => Or.inl he
  | cons line rest ih =>
    intro st hno e he
    have hl : detectShiftLabel (lineText line) = none := hno line (List.mem_cons_self _ _)
    obtain ⟨hcur, hemp⟩ := processLine_no_label anchors minX st "Unknown" line hl
    have he2 : processLines anchors minX (line :: rest) st "Unknown" =
        processLines anchors minX rest (processLine anchors minX st "Unknown" line).1
          (processLine anchors minX st "Unknown" line).2 := rfl
    rw [he2, hcur] at he
    rcases ih (processLine anchors minX st "Unknown" line).1
        (fun l hl' => hno l (List.mem_cons_of_mem _ hl')) e he with hmem | hsh
    · rcases hemp with heq | ⟨nm, codes, heq⟩
      · rw [heq] at hmem
        exact Or.inl hmem
      · rw [heq] at hmem
        rcases List.mem_append.mp hmem with hin | hin
        · exact Or.inl hin
        · rcases List.mem_singleton.mp hin with rfl
          exact Or.inr rfl
    · exact Or.inr hsh

/-- C1 (amended): the shift label does not carry across pages: `currentShift` is
re-initialized to "Unknown" on every page (src/app.js line 156 is inside the page loop),
so on any page all of whose lines carry no shift label — in particular a page that begins
with employee rows — every employee contributed by that page is assigned "Unknown",
regardless of the shift that was current at the end of the previous page. -/
theorem shift_reset_per_page (st : ParseState) (page : List RawItem)
    (hno : ∀ kv ∈ groupByLine (pageItems page), detectShiftLabel (lineText kv.2) = none) :
    ∀ e ∈ (processPage st page).employees, e ∈ st.employees ∨ e.shift = "Unknown" := by
  intro e he
  cases hpb : pickBestDayHeaderLine ((groupByLine (pageItems page)).map fun kv => kv.2) with
  | none =>
    have hfr := processPage_none_frame st page hpb
    exact Or.inl (hfr.1 ▸ he)
  | some headerLine =>
    have hpp : processPage st page =
        processLines
          ((sortByX (headerLine.filter fun t => isDay2 t.str)).map fun t =>
            DayAnchor.mk (strToNat t.str) t.x)
          (minXOf ((sortByX (headerLine.filter fun t => isDay2 t.str)).map fun t =>
            DayAnchor.mk (strToNat t.str) t.x))
          ((sortDesc ((groupByLine (pageItems page)).map fun kv => kv.1)).map fun k =>
            lineLookup (groupByLine (pageItems page)) k)
          (applyMY st (scanMY none (joinSpace ((pageItems page).map fun i => i.str)).data))
          "Unknown" := by
      simp only [processPage, hpb]
    rw [hpp] at he
    have hlineseq : ∀ l ∈ (sortDesc ((groupByLine (pageItems page)).map fun kv => kv.1)).map
        (fun k => lineLookup (groupByLine (pageItems page)) k),
        detectShiftLabel (lineText l) = none := by
      intro l hl
      obtain ⟨k, -, rfl⟩ := List.mem_map.mp hl
      cases hf : (groupByLine (pageItems page)).find? (fun kv => kv.1 = k) with
      | none =>
        simp only [lineLookup, hf]
        exact detectShiftLabel_empty_line
      | some kv =>
        simp only [lineLookup, hf]
        exact hno kv (List.mem_of_find?_eq_some hf)
    rcases processLines_unknown _ _ _ _ hlineseq e he with hmem | hsh
    · rw [(applyMY_frame st _).1] at hmem
      exact Or.inl hmem
    · exact Or.inr hsh

/-- C1 counterexample: a two-page document whose first page ends in shift "B" and whose
second page begins with an employee row before any shift label.  The claim says the
second page's employee MARY inherits "B"; the code assigns her "Unknown". -/
theorem shift_carry_cex :
    (parseSchedulePDF [exPageShift, exPageNoShift] 7 2025).employees.map
        (fun e => (e.name, e.shift)) = [("JOHN", "B"), ("MARY", "Unknown")] ∧
      ("Unknown" : String) ≠ "B" := by decide

/-- C1 witness: the amended theorem applied to the label-free second page and the MARY
employee it produces. -/
theorem shift_reset_per_page_w :
    (⟨"MARY", "Unknown", []⟩ : Employee) ∈ initState.employees ∨
      (⟨"MARY", "Unknown", []⟩ : Employee).shift = "Unknown" :=
  shift_reset_per_page initState exPageNoShift (by decide) ⟨"MARY", "Unknown", []⟩
    (by decide)

/-! ## The shift-membership invariant (claim C8) -/

theorem setAdd_mem {l : List String} {a : String} (h : a ∈ l) (s : String) :
    a ∈ setAdd l s := by
  unfold setAdd
  split
  · exact h
  · exact List.mem_append_left _ h

theorem setAdd_self (l : List String) (s : String) : s ∈ setAdd l s := by
  unfold setAdd
  split
  · assumption
  · exact List.mem_append_right _ (List.mem_singleton.mpr rfl)

theorem processPage_some (st : ParseState) (page : List RawItem) (headerLine : List RawItem)
    (hpb : pickBestDayHeaderLine ((groupByLine (pageItems page)).map fun kv => kv.2) =
      some headerLine) :
    processPage st page =
      processLines
        ((sortByX (headerLine.filter fun t => isDay2 t.str)).map fun t =>
          DayAnchor.mk (strToNat t.str) t.x)
        (minXOf ((sortByX (headerLine.filter fun t => isDay2 t.str)).map fun t =>
          DayAnchor.mk (strToNat t.str) t.x))
        ((sortDesc ((groupByLine (pageItems page)).map fun kv => kv.1)).map fun k =>
          lineLookup (groupByLine (pageItems page)) k)
        (applyMY st (scanMY none (joinSpace ((pageItems page).map fun i => i.str)).data))
        "Unknown" := by
  simp only [processPage, hpb]

theorem processLine_shift_inv (anchors : List DayAnchor) (minX : Int) (st : ParseState)
    (cur : String) (line : List RawItem)
    (hinv : ∀ e ∈ st.employees, e.shift ∈ st.shifts) :
    ∀ e ∈ (processLine anchors minX st cur line).1.employees,
      e.shift ∈ (processLine anchors minX st cur line).1.shifts := by
  intro e he
  cases hd : detectShiftLabel (lineText line) with
  | some label =>
    simp only [processLine, hd] at he ⊢
    exact setAdd_mem (hinv e he) label
  | none =>
    simp only [processLine, hd] at he ⊢
    by_cases h1 : isNonEmployeeLine (lineText line) = true
    · simp only [h1, if_true] at he ⊢
      exact hinv e he
    · simp only [eq_false_of_ne_true h1, Bool.false_eq_true, if_false] at he ⊢
      by_cases h2 : looksLikeEmployeeName (jsTrim (joinSpace
          (((sortByX line).filter fun t => t.x < minX - 12).map fun t => t.str))) = true
      · simp only [h2, if_true] at he ⊢
        rcases List.mem_append.mp he with hin | hin
        · exact setAdd_mem (hinv e hin) cur
        · rcases List.mem_singleton.mp hin with rfl
          exact setAdd_self st.shifts cur
      · simp only [eq_false_of_ne_true h2, Bool.false_eq_true, if_false] at he ⊢
        exact hinv e he

theorem processLines_shift_inv (anchors : List DayAnchor) (minX : Int) :
    ∀ (ls : List (List RawItem)) (st : ParseState) (cur : String),
      (∀ e ∈ st.employees, e.shift ∈ st.shifts) →
      ∀ e ∈ (processLines anchors minX ls st cur).employees,
        e.shift ∈ (processLines anchors minX ls st cur).shifts := by
  intro ls
  induction ls with
  | nil => exact fun st cur h => h
  | cons line rest ih =>
    exact fun st cur hinv => ih _ _ (processLine_shift_inv anchors minX st cur line hinv)

theorem processPage_shift_inv (st : ParseState) (page : List RawItem)
    (hinv : ∀ e ∈ st.employees, e.shift ∈ st.shifts) :
    ∀ e ∈ (processPage st page).employees, e.shift ∈ (processPage st page).shifts := by
  cases hpb : pickBestDayHeaderLine ((groupByLine (pageItems page)).map fun kv => kv.2) with
  | none =>
    intro e he
    have hfr := processPage_none_frame st page hpb
    rw [hfr.1] at he
    rw [hfr.2]
    exact hinv e he
  | some headerLine =>
    rw [processPage_some st page headerLine hpb]
    apply processLines_shift_inv
    intro e he
    rw [(applyMY_frame st _).1] at he
    rw [(applyMY_frame st _).2]
    exact hinv e he

/-- C8: every employee's shift value is a member of the shifts set — the property is
preserved by processing any page from any state satisfying it (so it holds at every page
boundary during parsing), and it holds of the final result of every document. -/
theorem shift_member_invariant :
    (∀ (st : ParseState) (page : List RawItem),
      (∀ e ∈ st.employees, e.shift ∈ st.shifts) →
      ∀ e ∈ (processPage st page).employees, e.shift ∈ (processPage st page).shifts) ∧
    (∀ (pages : List (List RawItem)) (nowM : Nat) (nowY : Int),
      ∀ e ∈ (parseSchedulePDF pages nowM nowY).employees,
        e.shift ∈ (parseSchedulePDF pages nowM nowY).shifts) := by
  refine ⟨processPage_shift_inv, ?_⟩
  have hfold : ∀ (ps : List (List RawItem)) (st : ParseState),
      (∀ e ∈ st.employees, e.shift ∈ st.shifts) →
      ∀ e ∈ (ps.foldl processPage st).employees, e.shift ∈ (ps.foldl processPage st).shifts := by
    intro ps
    induction ps with
    | nil => exact fun st h => h
    | cons p rest ih => exact fun st h => ih _ (processPage_shift_inv st p h)
  intro pages nowM nowY e he
  exact hfold pages initState (fun e h => absurd h (List.not_mem_nil e)) e he

/-- C8 witness: in the one-page document with shift "B" and employee JOHN, JOHN's shift
is in the result's shift set. -/
theorem shift_member_invariant_w :
    (⟨"JOHN", "B", []⟩ : Employee).shift ∈ (parseSchedulePDF [exPageShift] 7 2025).shifts :=
  shift_member_invariant.2 [exPageShift] 7 2025 ⟨"JOHN", "B", []⟩ (by decide)

/-! ## Character and code-shape lemmas (claim C9) -/

theorem char_toNat_ofNat (n : Nat) (h : n.isValidChar) : (Char.ofNat n).toNat = n := by
  unfold Char.ofNat
  rw [dif_pos h]
  rfl

theorem upChar_toNat_of_lower (c : Char) (h : 97 ≤ c.toNat ∧ c.toNat ≤ 122) :
    (upChar c).toNat = c.toNat - 32 := by
  unfold upChar
  rw [if_pos h]
  exact char_toNat_ofNat _ (Or.inl (by omega))

theorem upChar_idem (c : Char) : upChar (upChar c) = upChar c := by
  by_cases h : 97 ≤ c.toNat ∧ c.toNat ≤ 122
  · unfold upChar
    rw [if_pos h, if_neg]
    rw [show (Char.ofNat (c.toNat - 32)).toNat = c.toNat - 32 from
      char_toNat_ofNat _ (Or.inl (by omega))]
    omega
  · have e : upChar c = c := by unfold upChar; rw [if_neg h]
    rw [e]
    exact e

theorem upChar_digit {c : Char} (h : isDigitCh c = true) : upChar c = c := by
  have hn : 48 ≤ c.toNat ∧ c.toNat ≤ 57 := by
    simpa [isDigitCh, decide_eq_true_eq] using h
  unfold upChar
  rw [if_neg (by omega)]

theorem upChar_upper {c : Char} (h : isAsciiLetter c = true) :
    isUpperLetter (upChar c) = true := by
  have hn : (65 ≤ c.toNat ∧ c.toNat ≤ 90) ∨ (97 ≤ c.toNat ∧ c.toNat ≤ 122) := by
    simpa [isAsciiLetter, decide_eq_true_eq] using h
  rcases hn with hn | hn
  · have e : upChar c = c := by unfold upChar; rw [if_neg (by omega)]
    rw [e]
    simp only [isUpperLetter, decide_eq_true_eq]
    omega
  · have ht : (upChar c).toNat = c.toNat - 32 := upChar_toNat_of_lower c hn
    simp only [isUpperLetter, ht, decide_eq_true_eq]
    omega

theorem upper_not_digit {c : Char} (h : isUpperLetter c = true) : isDigitCh c = false := by
  simp only [isUpperLetter, decide_eq_true_eq] at h
  simp only [isDigitCh, decide_eq_false_iff_not]
  omega

theorem digit_not_upper {c : Char} (h : isDigitCh c = true) : isUpperLetter c = false := by
  simp only [isDigitCh, decide_eq_true_eq] at h
  simp only [isUpperLetter, decide_eq_false_iff_not]
  omega

theorem mem_takeWhile_pred {p : Char → Bool} :
    ∀ {l : List Char} {a : Char}, a ∈ l.takeWhile p → p a = true := by
  intro l
  induction l with
  | nil => intro a h; cases h
  | cons b rest ih =>
    intro a h
    rw [List.takeWhile_cons] at h
    by_cases hb : p b = true
    · rw [if_pos hb] at h
      rcases List.mem_cons.mp h with rfl | h
      · exact hb
      · exact ih h
    · rw [if_neg hb] at h
      cases h

theorem takeWhile_eq_self_of_all {p : Char → Bool} :
    ∀ {l : List Char}, (∀ a ∈ l, p a = true) → l.takeWhile p = l := by
  intro l
  induction l with
  | nil => intro; rfl
  | cons b rest ih =>
    intro h
    rw [List.takeWhile_cons, if_pos (h b (List.mem_cons_self _ _)),
      ih fun a ha => h a (List.mem_cons_of_mem _ ha)]

theorem dropWhile_eq_nil_of_all {p : Char → Bool} :
    ∀ {l : List Char}, (∀ a ∈ l, p a = true) → l.dropWhile p = [] := by
  intro l
  induction l with
  | nil => intro; rfl
  | cons b rest ih =>
    intro h
    rw [List.dropWhile_cons, if_pos (h b (List.mem_cons_self _ _))]
    exact ih fun a ha => h a (List.mem_cons_of_mem _ ha)

theorem takeWhile_append_all {p : Char → Bool} {l2 : List Char} :
    ∀ {l1 : List Char}, (∀ a ∈ l1, p a = true) →
      (l1 ++ l2).takeWhile p = l1 ++ l2.takeWhile p := by
  intro l1
  induction l1 with
  | nil => intro; rfl
  | cons b rest ih =>
    intro h
    rw [List.cons_append, List.takeWhile_cons, if_pos (h b (List.mem_cons_self _ _)),
      ih fun a ha => h a (List.mem_cons_of_mem _ ha), List.cons_append]

theorem dropWhile_append_all {p : Char → Bool} {l2 : List Char} :
    ∀ {l1 : List Char}, (∀ a ∈ l1, p a = true) →
      (l1 ++ l2).dropWhile p = l2.dropWhile p := by
  intro l1
  induction l1 with
  | nil => intro; rfl
  | cons b rest ih =>
    intro h
    rw [List.cons_append, List.dropWhile_cons, if_pos (h b (List.mem_cons_self _ _))]
    exact ih fun a ha => h a (List.mem_cons_of_mem _ ha)

theorem takeWhile_upper_digits {ds : List Char} (h : ds.all isDigitCh = true) :
    ds.takeWhile isUpperLetter = [] ∧ ds.dropWhile isUpperLetter = ds := by
  cases ds with
  | nil => exact ⟨rfl, rfl⟩
  | cons d rest =>
    simp only [List.all_cons, Bool.and_eq_true] at h
    have hd : isUpperLetter d = false := digit_not_upper h.1
    constructor
    · rw [List.takeWhile_cons]
      simp [hd]
    · rw [List.dropWhile_cons]
      simp [hd]

theorem map_upChar_upper {ls : List Char} (h : ∀ a ∈ ls, isAsciiLetter a = true) :
    ∀ b ∈ ls.map upChar, isUpperLetter b = true := by
  intro b hb
  rcases List.mem_map.mp hb with ⟨a, ha, rfl⟩
  exact upChar_upper (h a ha)

theorem map_upChar_digits {ds : List Char} (h : ds.all isDigitCh = true) :
    ds.map upChar = ds := by
  induction ds with
  | nil => rfl
  | cons d rest ih =>
    simp only [List.all_cons, Bool.and_eq_true] at h
    simp only [List.map_cons, upChar_digit h.1, ih h.2]

theorem day2Chars_false_of_head {c : Char} {l : List Char} (h : isDigitCh c = false) :
    day2Chars (c :: l) = false := by
  cases l with
  | nil => simp [day2Chars, h]
  | cons d r =>
    cases r with
    | nil => simp [day2Chars, h]
    | cons => rfl

theorem codeShape_common {l : List Char} (h : (codeShape1 l || codeShape2 l) = true) :
    1 ≤ (l.takeWhile isAsciiLetter).length ∧ (l.takeWhile isAsciiLetter).length ≤ 6 ∧
      (l.dropWhile isAsciiLetter).all isDigitCh = true ∧
      (l.dropWhile isAsciiLetter).length ≤ 3 := by
  rw [Bool.or_eq_true] at h
  rcases h with h | h
  · simp only [codeShape1, Bool.and_eq_true, decide_eq_true_eq] at h
    obtain ⟨⟨⟨h1, h2⟩, h3⟩, h4⟩ := h
    exact ⟨h1, h2, h3, h4⟩
  · simp only [codeShape2, Bool.and_eq_true, decide_eq_true_eq, List.all_eq_true] at h
    obtain ⟨⟨h2, h6⟩, hall⟩ := h
    rw [takeWhile_eq_self_of_all hall, dropWhile_eq_nil_of_all hall]
    exact ⟨by omega, h6, rfl, by simp⟩

theorem map_map_upChar (l : List Char) : (l.map upChar).map upChar = l.map upChar := by
  rw [List.map_map]
  exact List.map_congr_left fun a _ => upChar_idem a

/-- What `normalizeCode` guarantees about an accepted code: non-empty, upper-cased,
of the letters-then-digits shape, and not a bare 1-2-digit number. -/
theorem normalizeCode_wf (s c : String) (h : normalizeCode s = some c) :
    c ≠ "" ∧ c = jsUpper c ∧ upperCodeShape c = true ∧ isDay2 c = false := by
  by_cases h0 : jsTrim s = ""
  · simp [normalizeCode, h0] at h
  by_cases h1 : isDay2 (jsTrim s) = true
  · simp [normalizeCode, h0, h1] at h
  by_cases h2 : isFullMonthName (jsTrim s) = true
  · simp [normalizeCode, h0, h1, h2] at h
  by_cases h3 : (codeShape1 (jsTrim s).data || codeShape2 (jsTrim s).data) = true
  case neg => simp [normalizeCode, h0, h1, h2, h3] at h
  have hc : c = jsUpper (jsTrim s) := by
    simp [normalizeCode, h0, h1, h2, h3] at h
    exact h.symm
  obtain ⟨hls1, hls6, hdsdig, hds3⟩ := codeShape_common h3
  have hsplit : (jsTrim s).data.takeWhile isAsciiLetter ++
      (jsTrim s).data.dropWhile isAsciiLetter = (jsTrim s).data :=
    List.takeWhile_append_dropWhile _ _
  have hlsall : ∀ a ∈ (jsTrim s).data.takeWhile isAsciiLetter, isAsciiLetter a = true :=
    fun a ha => mem_takeWhile_pred ha
  have hcdata : c.data =
      ((jsTrim s).data.takeWhile isAsciiLetter).map upChar ++
        (jsTrim s).data.dropWhile isAsciiLetter := by
    rw [hc]
    show (jsTrim s).data.map upChar = _
    conv_lhs => rw [← hsplit]
    rw [List.map_append, map_upChar_digits hdsdig]
  have hup_all : ∀ b ∈ ((jsTrim s).data.takeWhile isAsciiLetter).map upChar,
      isUpperLetter b = true := map_upChar_upper hlsall
  obtain ⟨hds_take, hds_drop⟩ := takeWhile_upper_digits hdsdig
  have hshape : upperCodeShape c = true := by
    simp only [upperCodeShape, hcdata, takeWhile_append_all hup_all,
      dropWhile_append_all hup_all, hds_take, hds_drop, List.append_nil, Bool.and_eq_true,
      decide_eq_true_eq, List.length_map]
    exact ⟨⟨⟨hls1, hls6⟩, hdsdig⟩, hds3⟩
  have hne : c ≠ "" := by
    intro he
    have hdata : c.data = [] := by rw [he]
    rw [hcdata] at hdata
    rcases List.append_eq_nil.mp hdata with ⟨hmap, -⟩
    rw [List.map_eq_nil_iff] at hmap
    rw [hmap] at hls1
    simp at hls1
  have hd2 : isDay2 c = false := by
    cases hls : (jsTrim s).data.takeWhile isAsciiLetter with
    | nil =>
      rw [hls] at hls1
      simp at hls1
    | cons a rest =>
      have hhead : c.data = upChar a ::
          (rest.map upChar ++ (jsTrim s).data.dropWhile isAsciiLetter) := by
        rw [hcdata, hls]
        simp [List.map_cons, List.cons_append]
      have hu : isUpperLetter (upChar a) = true :=
        upChar_upper (hlsall a (by rw [hls]; exact List.mem_cons_self _ _))
      show day2Chars c.data = false
      rw [hhead]
      exact day2Chars_false_of_head (upper_not_digit hu)
  have hupc : c = jsUpper c := by
    rw [hc]
    show jsUpper (jsTrim s) = jsUpper (jsUpper (jsTrim s))
    exact congrArg String.mk (map_map_upChar (jsTrim s).data).symm
  exact ⟨hne, hupc, hshape, hd2⟩

/-! ## Code-map well-formedness through the pipeline (claim C9) -/

theorem objSet_wf {codes : List (Nat × String)} {k : Nat} {v : String}
    (hall : ∀ p ∈ codes, codeWF p) (hkv : codeWF (k, v)) :
    ∀ p ∈ objSet codes k v, codeWF p := by
  intro p hp
  unfold objSet at hp
  split at hp
  · rcases List.mem_map.mp hp with ⟨q, hq, hpe⟩
    by_cases hqk : q.1 = k
    · rw [← hpe, if_pos hqk]
      exact hkv
    · rw [← hpe, if_neg hqk]
      exact hall q hq
  · rcases List.mem_append.mp hp with hin | hin
    · exact hall p hin
    · rcases List.mem_singleton.mp hin with rfl
      exact hkv

theorem codeStep_wf (anchors : List DayAnchor) (codes : List (Nat × String)) (t : RawItem)
    (h : ∀ p ∈ codes, codeWF p) : ∀ p ∈ codeStep anchors codes t, codeWF p := by
  intro p hp
  cases hn : normalizeCode t.str with
  | none =>
    simp only [codeStep, hn] at hp
    exact h p hp
  | some code =>
    cases hd : nearestDay t.x anchors with
    | none =>
      simp only [codeStep, hn, hd] at hp
      exact h p hp
    | some day =>
      simp only [codeStep, hn, hd] at hp
      by_cases h0 : day = 0
      · rw [if_pos h0] at hp
        exact h p hp
      · rw [if_neg h0] at hp
        by_cases hr : 1 ≤ day ∧ day ≤ 31
        · rw [if_pos hr] at hp
          refine objSet_wf h ?_ p hp
          obtain ⟨hne, hup, hsh, hd2⟩ := normalizeCode_wf t.str code hn
          exact ⟨hr.1, hr.2, hne, hup, hsh, hd2⟩
        · rw [if_neg hr] at hp
          exact h p hp

theorem buildCodes_wf (anchors : List DayAnchor) (right : List RawItem) :
    ∀ p ∈ buildCodes anchors right, codeWF p := by
  have hfold : ∀ (r : List RawItem) (acc : List (Nat × String)),
      (∀ p ∈ acc, codeWF p) → ∀ p ∈ r.foldl (codeStep anchors) acc, codeWF p := by
    intro r
    induction r with
    | nil => exact fun acc h => h
    | cons t rest ih => exact fun acc h => ih _ (codeStep_wf anchors acc t h)
  exact hfold right [] (fun p hp => absurd hp (List.not_mem_nil p))

theorem processLine_codes_wf (anchors : List DayAnchor) (minX : Int) (st : ParseState)
    (cur : String) (line : List RawItem)
    (h : ∀ e ∈ st.employees, ∀ p ∈ e.codes, codeWF p) :
    ∀ e ∈ (processLine anchors minX st cur line).1.employees, ∀ p ∈ e.codes, codeWF p := by
  intro e he
  cases hd : detectShiftLabel (lineText line) with
  | some label =>
    simp only [processLine, hd] at he
    exact h e he
  | none =>
    simp only [processLine, hd] at he
    by_cases h1 : isNonEmployeeLine (lineText line) = true
    · rw [if_pos h1] at he
      exact h e he
    · rw [if_neg h1] at he
      by_cases h2 : looksLikeEmployeeName (jsTrim (joinSpace
          (((sortByX line).filter fun t => t.x < minX - 12).map fun t => t.str))) = true
      · rw [if_pos h2] at he
        rcases List.mem_append.mp he with hin | hin
        · exact h e hin
        · rcases List.mem_singleton.mp hin with rfl
          exact buildCodes_wf anchors _
      · rw [if_neg h2] at he
        exact h e he

theorem processLines_codes_wf (anchors : List DayAnchor) (minX : Int) :
    ∀ (ls : List (List RawItem)) (st : ParseState) (cur : String),
      (∀ e ∈ st.employees, ∀ p ∈ e.codes, codeWF p) →
      ∀ e ∈ (processLines anchors minX ls st cur).employees, ∀ p ∈ e.codes, codeWF p := by
  intro ls
  induction ls with
  | nil => exact fun st cur h => h
  | cons line rest ih =>
    exact fun st cur h => ih _ _ (processLine_codes_wf anchors minX st cur line h)

theorem processPage_codes_wf (st : ParseState) (page : List RawItem)
    (h : ∀ e ∈ st.employees, ∀ p ∈ e.codes, codeWF p) :
    ∀ e ∈ (processPage st page).employees, ∀ p ∈ e.codes, codeWF p := by
  cases hpb : pickBestDayHeaderLine ((groupByLine (pageItems page)).map fun kv => kv.2) with
  | none =>
    intro e he
    rw [(processPage_none_frame st page hpb).1] at he
    exact h e he
  | some headerLine =>
    rw [processPage_some st page headerLine hpb]
    apply processLines_codes_wf
    intro e he
    rw [(applyMY_frame st _).1] at he
    exact h e he

/-- C9: for every document, every employee's codes mapping is well-formed: each key is a
day number in 1..31 and each value is a non-empty normalized code string — upper-cased,
matching the accepted letters-then-digits pattern, never a bare 1-2-digit number
(the conjunction `codeWF`). -/
theorem codes_wellformed (pages : List (List RawItem)) (nowM : Nat) (nowY : Int) :
    ∀ e ∈ (parseSchedulePDF pages nowM nowY).employees, ∀ p ∈ e.codes, codeWF p := by
  have hfold : ∀ (ps : List (List RawItem)) (st : ParseState),
      (∀ e ∈ st.employees, ∀ p ∈ e.codes, codeWF p) →
      ∀ e ∈ (ps.foldl processPage st).employees, ∀ p ∈ e.codes, codeWF p := by
    intro ps
    induction ps with
    | nil => exact fun st h => h
    | cons p rest ih => exact fun st h => ih _ (processPage_codes_wf st p h)
  exact hfold pages initState (fun e he => absurd he (List.not_mem_nil e))

/-- C9 witness: the document with employee ANA and a code "FG" under day 1 yields the
code-map entry (1, "FG"), which is well-formed. -/
theorem codes_wellformed_w : codeWF (1, "FG") :=
  codes_wellformed [exPageCodes] 7 2025 ⟨"ANA", "Unknown", [(1, "FG")]⟩ (by decide)
    (1, "FG") (by decide)

/-! ## Month/year detection lemmas (claim C2) -/

theorem ciMatchLen_lower :
    ∀ (p l tk r : List Char), ciMatchLen p l = some (tk, r) → tk.map lowChar = p := by
  intro p
  induction p with
  | nil =>
    intro l tk r h
    simp only [ciMatchLen, Option.some.injEq, Prod.mk.injEq] at h
    rw [← h.1]
    rfl
  | cons pc ps ih =>
    intro l tk r h
    cases l with
    | nil => simp [ciMatchLen] at h
    | cons c cs =>
      by_cases hc : lowChar c = pc
      · cases hm : ciMatchLen ps cs with
        | none => simp [ciMatchLen, hc, hm] at h
        | some pr =>
          obtain ⟨tk2, r2⟩ := pr
          simp only [ciMatchLen, hc, if_true, hm, Option.some.injEq, Prod.mk.injEq] at h
          rw [← h.1]
          simp only [List.map_cons, hc]
          rw [ih cs tk2 r2 hm]
      · simp [ciMatchLen, hc] at h

theorem tryMonths_lower :
    ∀ (names : List String) (l : List Char) (nm : String) (y : Int),
      tryMonths names l = some (nm, y) → ∃ cand ∈ names, jsLower nm = jsLower cand := by
  intro names
  induction names with
  | nil => intro l nm y h; simp [tryMonths] at h
  | cons cand rest ih =>
    intro l nm y h
    cases hm : ciMatchLen (jsLower cand).data l with
    | none =>
      simp only [tryMonths, hm] at h
      obtain ⟨c2, hc2, hlow⟩ := ih l nm y h
      exact ⟨c2, List.mem_cons_of_mem _ hc2, hlow⟩
    | some pr =>
      obtain ⟨tk, r⟩ := pr
      cases hy : tryYear r with
      | none =>
        simp only [tryMonths, hm, hy] at h
        obtain ⟨c2, hc2, hlow⟩ := ih l nm y h
        exact ⟨c2, List.mem_cons_of_mem _ hc2, hlow⟩
      | some yy =>
        simp only [tryMonths, hm, hy, Option.some.injEq, Prod.mk.injEq] at h
        refine ⟨cand, List.mem_cons_self _ _, ?_⟩
        rw [← h.1]
        show (⟨tk.map lowChar⟩ : String) = jsLower cand
        rw [ciMatchLen_lower _ _ _ _ hm]

theorem scanMY_lower :
    ∀ (l : List Char) (prev : Option Char) (nm : String) (y : Int),
      scanMY prev l = some (nm, y) → ∃ cand ∈ monthNamesU, jsLower nm = jsLower cand := by
  intro l
  induction l with
  | nil => intro prev nm y h; simp [scanMY] at h
  | cons c cs ih =>
    intro prev nm y h
    cases hb : wordBoundary prev with
    | false =>
      simp only [scanMY, hb, Bool.false_eq_true, if_false] at h
      exact ih (some c) nm y h
    | true =>
      simp only [scanMY, hb, if_true] at h
      cases ht : tryMonths monthNamesU (c :: cs) with
      | none =>
        rw [ht] at h
        exact ih (some c) nm y h
      | some res =>
        obtain ⟨nm2, y2⟩ := res
        rw [ht] at h
        simp only [Option.some.injEq, Prod.mk.injEq] at h
        rw [← h.1]
        exact tryMonths_lower monthNamesU (c :: cs) nm2 y2 ht

theorem monthNameToNumber_lower (nm cand : String) (h : jsLower nm = jsLower cand) :
    monthNameToNumber nm = monthNameToNumber cand := by
  simp only [monthNameToNumber, h]

theorem monthNames_lookup :
    ∀ cand ∈ monthNamesU, ∃ m, monthNameToNumber cand = some m ∧ 1 ≤ m ∧ m ≤ 12 := by
  intro cand hc
  fin_cases hc <;> exact ⟨_, rfl, by omega, by omega⟩

theorem scanMY_month_ok (prev : Option Char) (l : List Char) (nm : String) (y : Int)
    (h : scanMY prev l = some (nm, y)) :
    ∃ m, monthNameToNumber nm = some m ∧ 1 ≤ m ∧ m ≤ 12 := by
  obtain ⟨cand, hcand, hlow⟩ := scanMY_lower l prev nm y h
  obtain ⟨m, hm, h1, h12⟩ := monthNames_lookup cand hcand
  exact ⟨m, (monthNameToNumber_lower nm cand hlow).trans hm, h1, h12⟩

theorem applyMY_inv (st : ParseState) (o : Option (String × Int)) (h : myInv st)
    (ho : ∀ nm y, o = some (nm, y) →
      ∃ m, monthNameToNumber nm = some m ∧ 1 ≤ m ∧ m ≤ 12) :
    myInv (applyMY st o) := by
  cases o with
  | none => exact h
  | some my =>
    obtain ⟨nm, y⟩ := my
    by_cases hf : jsFalsyOptInt st.detectedYear = true
    · obtain ⟨m, hm, h1, h12⟩ := ho nm y rfl
      simp only [applyMY, hf, if_true]
      constructor
      · constructor
        · intro hmo
          have hmo2 : monthNameToNumber nm = none := hmo
          rw [hm] at hmo2
          cases hmo2
        · intro hy
          cases hy
      · intro m2 hm2
        have hm3 : monthNameToNumber nm = some m2 := hm2
        rw [hm] at hm3
        injection hm3 with hmm2
        omega
    · have he : applyMY st (some (nm, y)) = st := by
        simp only [applyMY, eq_false_of_ne_true hf, Bool.false_eq_true, if_false]
      rw [he]
      exact h

theorem processLine_detected (anchors : List DayAnchor) (minX : Int) (st : ParseState)
    (cur : String) (line : List RawItem) :
    (processLine anchors minX st cur line).1.detectedMonth = st.detectedMonth ∧
      (processLine anchors minX st cur line).1.detectedYear = st.detectedYear := by
  cases hd : detectShiftLabel (lineText line) with
  | some label => simp [processLine, hd]
  | none =>
    simp only [processLine, hd]
    by_cases h1 : isNonEmployeeLine (lineText line) = true
    · simp [h1]
    · simp only [eq_false_of_ne_true h1, Bool.false_eq_true, if_false]
      by_cases h2 : looksLikeEmployeeName (jsTrim (joinSpace
          (((sortByX line).filter fun t => t.x < minX - 12).map fun t => t.str))) = true
      · simp [h2]
      · simp [eq_false_of_ne_true h2]

theorem processLines_detected (anchors : List DayAnchor) (minX : Int) :
    ∀ (ls : List (List RawItem)) (st : ParseState) (cur : String),
      (processLines anchors minX ls st cur).detectedMonth = st.detectedMonth ∧
        (processLines anchors minX ls st cur).detectedYear = st.detectedYear := by
  intro ls
  induction ls with
  | nil => exact fun st cur => ⟨rfl, rfl⟩
  | cons line rest ih =>
    intro st cur
    obtain ⟨ihm, ihy⟩ := ih (processLine anchors minX st cur line).1
      (processLine anchors minX st cur line).2
    obtain ⟨hm, hy⟩ := processLine_detected anchors minX st cur line
    exact ⟨ihm.trans hm, ihy.trans hy⟩

theorem processPage_myInv (st : ParseState) (page : List RawItem) (h : myInv st) :
    myInv (processPage st page) := by
  have hMY : myInv (applyMY st
      (scanMY none (joinSpace ((pageItems page).map fun i => i.str)).data)) :=
    applyMY_inv st _ h fun nm y ho => scanMY_month_ok _ _ nm y ho
  cases hpb : pickBestDayHeaderLine ((groupByLine (pageItems page)).map fun kv => kv.2) with
  | none =>
    have he : processPage st page = applyMY st
        (scanMY none (joinSpace ((pageItems page).map fun i => i.str)).data) := by
      simp only [processPage, hpb]
    rw [he]
    exact hMY
  | some headerLine =>
    rw [processPage_some st page headerLine hpb]
    obtain ⟨hm, hy⟩ := processLines_detected
      ((sortByX (headerLine.filter fun t => isDay2 t.str)).map fun t =>
        DayAnchor.mk (strToNat t.str) t.x)
      (minXOf ((sortByX (headerLine.filter fun t => isDay2 t.str)).map fun t =>
        DayAnchor.mk (strToNat t.str) t.x))
      ((sortDesc ((groupByLine (pageItems page)).map fun kv => kv.1)).map fun k =>
        lineLookup (groupByLine (pageItems page)) k)
      (applyMY st (scanMY none (joinSpace ((pageItems page).map fun i => i.str)).data))
      "Unknown"
    unfold myInv
    rw [hm, hy]
    exact hMY

theorem parse_myInv (pages : List (List RawItem)) :
    myInv (pages.foldl processPage initState) := by
  have hfold : ∀ (ps : List (List RawItem)) (st : ParseState),
      myInv st → myInv (ps.foldl processPage st) := by
    intro ps
    induction ps with
    | nil => exact fun st h => h
    | cons p rest ih => exact fun st h => ih _ (processPage_myInv st p h)
  exact hfold pages initState ⟨⟨fun _ => rfl, fun _ => rfl⟩, fun m hm => by cases hm⟩

/-- C2 (amended): the result's month and year are either both taken from the same
detected month-name + 4-digit-year match or both taken from the system date — except
when the detected 4-digit year is "0000": the stored year 0 is falsy in JS, so the month
stays detected while the year falls back to the system year. -/
theorem month_year_pairing (pages : List (List RawItem)) (nowM : Nat) (nowY : Int) :
    ((pages.foldl processPage initState).detectedYear = none →
      (pages.foldl processPage initState).detectedMonth = none ∧
      (parseSchedulePDF pages nowM nowY).month = nowM ∧
      (parseSchedulePDF pages nowM nowY).year = nowY) ∧
    (∀ y : Int, (pages.foldl processPage initState).detectedYear = some y → y ≠ 0 →
      ∃ m, (pages.foldl processPage initState).detectedMonth = some m ∧
        (parseSchedulePDF pages nowM nowY).month = m ∧
        (parseSchedulePDF pages nowM nowY).year = y) ∧
    ((pages.foldl processPage initState).detectedYear = some 0 →
      ∃ m, (pages.foldl processPage initState).detectedMonth = some m ∧
        (parseSchedulePDF pages nowM nowY).month = m ∧
        (parseSchedulePDF pages nowM nowY).year = nowY) := by
  obtain ⟨hiff, hbound⟩ := parse_myInv pages
  have hres_m : (parseSchedulePDF pages nowM nowY).month =
      jsOrNat (pages.foldl processPage initState).detectedMonth nowM := rfl
  have hres_y : (parseSchedulePDF pages nowM nowY).year =
      jsOrInt (pages.foldl processPage initState).detectedYear nowY := rfl
  refine ⟨?_, ?_, ?_⟩
  · intro hy
    have hmo : (pages.foldl processPage initState).detectedMonth = none := hiff.mpr hy
    refine ⟨hmo, ?_, ?_⟩
    · rw [hres_m, hmo]
      rfl
    · rw [hres_y, hy]
      rfl
  · intro y hy hy0
    cases hmo : (pages.foldl processPage initState).detectedMonth with
    | none =>
      rw [hiff.mp hmo] at hy
      cases hy
    | some m =>
      obtain ⟨hb1, hb12⟩ := hbound m hmo
      refine ⟨m, rfl, ?_, ?_⟩
      · rw [hres_m, hmo]
        show (if m = 0 then nowM else m) = m
        rw [if_neg (by omega)]
      · rw [hres_y, hy]
        show (if y = 0 then nowY else y) = y
        rw [if_neg hy0]
  · intro hy
    cases hmo : (pages.foldl processPage initState).detectedMonth with
    | none =>
      rw [hiff.mp hmo] at hy
      cases hy
    | some m =>
      obtain ⟨hb1, hb12⟩ := hbound m hmo
      refine ⟨m, rfl, ?_, ?_⟩
      · rw [hres_m, hmo]
        show (if m = 0 then nowM else m) = m
        rw [if_neg (by omega)]
      · rw [hres_y, hy]
        rfl

/-- C2 witness: the year-0 branch of the pairing theorem at the "January 0000" page. -/
theorem month_year_pairing_w :
    ∃ m, ([exPageYear0].foldl processPage initState).detectedMonth = some m ∧
      (parseSchedulePDF [exPageYear0] 7 2025).month = m ∧
      (parseSchedulePDF [exPageYear0] 7 2025).year = 2025 :=
  (month_year_pairing [exPageYear0] 7 2025).2.2 (by decide)

/-- C2 counterexample: on a page whose text is "January 0000" the detection stores
month 1 and year 0; year 0 is falsy, so the result's month is the detected 1 (not the
system month 7) while its year is the system year (2025, or 2026 when the clock says
2026) — a mixed detected/fallback pair, contradicting the claim. -/
theorem month_year_mixed_cex :
    ([exPageYear0].foldl processPage initState).detectedMonth = some 1 ∧
      ([exPageYear0].foldl processPage initState).detectedYear = some 0 ∧
      (parseSchedulePDF [exPageYear0] 7 2025).month = 1 ∧
      (parseSchedulePDF [exPageYear0] 7 2025).year = 2025 ∧
      (parseSchedulePDF [exPageYear0] 7 2026).year = 2026 := by decide

end App
